import Mathlib

/-!
# Verification of the route-recognizer engine

Shallow embedding of the `route-recognizer` module (path-template
recognition and generation) of this repository.  JavaScript strings are
modelled as `List Char`; JS objects used as string-keyed maps are
modelled as association lists with first-key-wins lookup and
update-in-place-or-append insertion (mirroring JS property-insertion
order semantics); the absent value `undefined` is modelled by `Option`.

The regular expressions the engine builds are drawn from a small closed
set of fragment shapes (escaped literal, `([^/]+)`, `([^/;]+)`, `(.+)`,
`([^;]+)`, each optionally followed by the query group `(?:;([^/]*))?`).
The embedding represents each fragment structurally and implements the
exact matching/capture semantics (greedy quantifiers with backtracking,
alternatives tried in JS preference order) for that fragment language.
The engine's `escapeRegex` escapes `/ . * + ? | ( ) [ ] { } \` but *not*
`^` or `$`, so those characters inside a static text survive into the
compiled pattern as start/end-of-input assertions; the matchers
(`matchStatic` / `matchStaticPath`) model them as such.
-/

namespace RouteRec

/-- JS strings, modelled as lists of characters. -/
abbrev Str := List Char

/-- `s.split(c)` of JavaScript for a one-character separator: splits on
every occurrence; `"".split(c) = [""]`, and adjacent separators produce
empty pieces. -/
def splitChar (c : Char) : Str → List Str
  | [] => [[]]
  | x :: xs =>
    if x = c then [] :: splitChar c xs
    else
      match splitChar c xs with
      | [] => [[x]]
      | h :: t => (x :: h) :: t

/-- Joins pieces with a one-character separator (inverse of `splitChar`
when no piece contains the separator). -/
def joinSep (c : Char) : List Str → Str
  | [] => []
  | [p] => p
  | p :: ps => p ++ c :: joinSep c ps

/-- Whether `sub` occurs as a contiguous substring of the argument. -/
def containsSub (sub : Str) : Str → Bool
  | [] => sub.isEmpty
  | c :: cs => sub.isPrefixOf (c :: cs) || containsSub sub cs

/-- JavaScript `s.replace(sub, repl)` with a *string* pattern: replaces
only the first occurrence of `sub` (here `sub` is always nonempty). -/
def replaceFirst (sub repl : Str) : Str → Str
  | [] => []
  | c :: cs =>
    if sub.isPrefixOf (c :: cs) then repl ++ (c :: cs).drop sub.length
    else c :: replaceFirst sub repl cs

/-- Length of the longest prefix all of whose characters satisfy `p`. -/
def countWhile (p : Char → Bool) : Str → Nat
  | [] => 0
  | c :: cs => if p c then countWhile p cs + 1 else 0

/-- `[n, n-1, …, 1]`: candidate lengths for a greedy `+` quantifier,
longest first (JS backtracking preference order). -/
def descFrom (n : Nat) : List Nat := (List.range n).map (fun i => n - i)

/-- `[n, n-1, …, 1, 0]`: candidate lengths for a greedy `*` quantifier. -/
def descFrom0 (n : Nat) : List Nat := (List.range (n + 1)).map (fun i => n - i)

/-- First `some` produced by `f` along the list (backtracking search). -/
def firstSome (f : α → Option β) : List α → Option β
  | [] => none
  | x :: xs =>
    match f x with
    | some b => some b
    | none => firstSome f xs

/-- Splits at the first occurrence of `c`: `some (before, after)`, or
`none` when `c` does not occur. -/
def splitAtFirst (c : Char) : Str → Option (Str × Str)
  | [] => none
  | x :: xs =>
    if x = c then some ([], xs)
    else (splitAtFirst c xs).map (fun p => (x :: p.1, p.2))

/-- JS object property read `o[k]` on a string-keyed map. -/
def objGet (k : Str) : List (Str × α) → Option α
  | [] => none
  | (k', v) :: rest => if k' = k then some v else objGet k rest

/-- JS object property write `o[k] = v`: updates the existing property in
place (keeping its insertion position) or appends a new one. -/
def objInsert (k : Str) (v : α) : List (Str × α) → List (Str × α)
  | [] => [(k, v)]
  | (k', v') :: rest =>
    if k' = k then (k, v) :: rest else (k', v') :: objInsert k v rest

/-! ## Query codec (`serializeQuery` / `deserializeQueryString`) -/

/-- A value in a query mapping: a string, or the boolean `true` produced
for bare (flag-only) keys. -/
inductive QVal where
  | str (s : Str)
  | tru
deriving DecidableEq, Repr

/-- A flat query mapping (JS object). -/
abbrev QueryMap := List (Str × QVal)

/-- JS truthiness of a query value (`true` is truthy, a string is truthy
iff nonempty). -/
def qtruthy : QVal → Bool
  | .str s => !s.isEmpty
  | .tru => true

/-- JS string coercion `v + ''` of a query value. -/
def qvalStr : QVal → Str
  | .str s => s
  | .tru => "true".toList

/-- The encoder's escaping `r`: `str.replace(';','%253B').replace('=','%253D')`
(first occurrence each, per JS string-pattern `replace`). -/
def rser (s : Str) : Str :=
  replaceFirst ['='] "%253D".toList (replaceFirst [';'] "%253B".toList s)

/-- The decoder's unescaping `r`: `str.replace('%3D','=').replace('%3B',';')`
(first occurrence each). -/
def rdes (s : Str) : Str :=
  replaceFirst "%3B".toList [';'] (replaceFirst "%3D".toList ['='] s)

/-- The loop body of `serializeQuery`: emit `r(k)` and, when the value is
truthy, append `'=' + r(value + '')`. -/
def serializePair (kv : Str × QVal) : Str :=
  if qtruthy kv.2 then rser kv.1 ++ '=' :: rser (qvalStr kv.2) else rser kv.1

/-- `serializeQuery(query)`: the serialized pairs joined with `';'`. -/
def serializeQuery (q : QueryMap) : Str :=
  joinSep ';' (q.map serializePair)

/-- The loop body of `deserializeQueryString`: split the pair on `'='`
(all occurrences, JS `split`), take elements 0 and 1; a pair without
`'='` becomes the boolean `true`. -/
def deserializePair (m : QueryMap) (pairStr : Str) : QueryMap :=
  let pair := splitChar '=' pairStr
  objInsert (rdes (pair.getD 0 []))
    (if pair.length > 1 then QVal.str (rdes (pair.getD 1 [])) else QVal.tru) m

/-- `deserializeQueryString(queryString)`: split on `';'` and fold the
pairs into a fresh mapping. -/
def deserializeQueryString (qs : Str) : QueryMap :=
  (splitChar ';' qs).foldl deserializePair []

/-! ## Segments and template parsing -/

/-- A parsed template segment (`StaticSegment`, `DynamicSegment`,
`StarSegment`, `EpsilonSegment`). -/
inductive Segment where
  | static (text : Str)
  | dynamic (name : Str)
  | star (name : Str)
  | epsilon
deriving DecidableEq, Repr

/-- Classification of one `/`-delimited token of a template, as in the
body of `parse`: `/^:([^\/]+)$/` is a dynamic segment, `/^\*([^\/]+)$/` a
star segment, the empty token is dropped, everything else is static.
(A token produced by splitting on `/` never contains `/`, so the
anchored regexes reduce to a head test plus nonemptiness of the rest.) -/
def classify (tok : Str) : Option Segment :=
  match tok with
  | [] => none
  | c :: rest =>
    if c = ':' && !rest.isEmpty then some (.dynamic rest)
    else if c = '*' && !rest.isEmpty then some (.star rest)
    else some (.static (c :: rest))

/-- `parse(route, names, types)`: strip one leading `/`, split on `/`,
classify each token.  The `names` and `types` accumulators of the source
are recovered from the result by `segNames` and `countTypes`. -/
def parse (route : Str) : List Segment :=
  let route := match route with
    | '/' :: rest => rest
    | r => r
  (splitChar '/' route).filterMap classify

/-- The parameter names pushed by `parse`, in order. -/
def segNames (segs : List Segment) : List Str :=
  segs.filterMap fun s =>
    match s with
    | .dynamic n => some n
    | .star n => some n
    | _ => none

/-- The `{statics, dynamics, stars}` specificity counter. -/
structure Types where
  statics : Nat
  dynamics : Nat
  stars : Nat
deriving DecidableEq, Repr

/-- Adds one registration call's segment counts onto an accumulator
(the `types` object is shared across all levels of one `add`). -/
def countTypes (t : Types) : List Segment → Types
  | [] => t
  | .static _ :: rest => countTypes { t with statics := t.statics + 1 } rest
  | .dynamic _ :: rest => countTypes { t with dynamics := t.dynamics + 1 } rest
  | .star _ :: rest => countTypes { t with stars := t.stars + 1 } rest
  | .epsilon :: rest => countTypes t rest

/-! ## Regex keys and combined-regex fragments

`State.put` keys children by the *source string* of the segment's
anchored regex `'^' + segment.regex() + '$'`.  Those strings are in
bijection with the structural data below: a static fragment escapes its
literal text character-по-character (injective), the query suffix
`(?:;([^/]*))?` and the dynamic/star character-class fragments contain
regex metacharacters in positions no escaped literal can produce, and
dynamic/star fragments do not mention the segment's parameter name.  So
string equality of keys coincides with equality of `SegKey`. -/

/-- Structural form of a child key `'^' + segment.regex() + '$'`.
`q` records JS truthiness of the segment's `query` marker (which appends
`(?:;([^/]*))?` to the fragment).  `kEmpty` is the key `'^$'` produced by
`put('')` for an empty registration. -/
inductive SegKey where
  | kStatic (text : Str) (q : Bool)
  | kDynamic (q : Bool)
  | kStar (q : Bool)
  | kEmpty
deriving DecidableEq, Repr

/-- Structural form of one `'/' + segment.regex()` fragment of the
terminal node's combined regex.  `fEpsilon` is the fragment
`'/' + '(?:;([^/]*))?'` contributed by an `EpsilonSegment`. -/
inductive Frag where
  | fStatic (text : Str) (q : Bool)
  | fDynamic (q : Bool)
  | fStar (q : Bool)
  | fEpsilon
deriving DecidableEq, Repr

/-- Characters matched by `.` in a JS regex (anything but a line
terminator). -/
def dotChar (c : Char) : Bool :=
  c ≠ '\n' && c ≠ '\r' && c.toNat ≠ 0x2028 && c.toNat ≠ 0x2029

/-- Matching of an escaped static text against an input, tracking
position.  `escapeRegex` escapes `/ . * + ? | ( ) [ ] { } \` but *not*
`^` and `$`, so those two characters survive as assertions in the
compiled pattern: `^` succeeds only at the very start of the input
(`atStart`, i.e. nothing consumed yet) and `$` only when no input
remains; every other character of the text matches itself literally.
Returns the updated `atStart` flag and the unconsumed input. -/
def matchStatic (atStart : Bool) : Str → Str → Option (Bool × Str)
  | [], s => some (atStart, s)
  | c :: t, s =>
    if c = '^' then
      if atStart then matchStatic atStart t s else none
    else if c = '$' then
      if s.isEmpty then matchStatic atStart t s else none
    else
      match s with
      | [] => none
      | x :: xs => if x = c then matchStatic false t xs else none

/-- `matchStatic` for a static text occurring inside the terminal node's
combined path regex: there the text is matched strictly after the
fragment's leading `/`, so the position is never the start of the input
and an unescaped `^` assertion can never hold; `$` still succeeds
exactly at the end of the whole path. -/
def matchStaticPath : Str → Str → Option Str
  | [], s => some s
  | c :: t, s =>
    if c = '^' then none
    else if c = '$' then
      if s.isEmpty then matchStaticPath t s else none
    else
      match s with
      | [] => none
      | x :: xs => if x = c then matchStaticPath t xs else none

/-- `segment.match('^' + frag + '$')` of `State.match`: whether a path
segment string matches a child's anchored regex key.  The decompositions
are those of the fragment shapes: e.g. `^T(?:;([^/]*))?$` matches
whatever `matchStatic` leaves of `T` — anchor characters in `T`
included — followed by nothing, or by `;` and any `/`-free suffix. -/
def segMatches (k : SegKey) (s : Str) : Bool :=
  match k with
  | .kStatic t false =>
    match matchStatic true t s with
    | some (_, rest) => rest.isEmpty
    | none => false
  | .kStatic t true =>
    match matchStatic true t s with
    | some (_, rest) =>
      rest.isEmpty ||
        (match rest with
         | ';' :: qs => qs.all (· ≠ '/')
         | _ => false)
    | none => false
  | .kDynamic false => !s.isEmpty && s.all (· ≠ '/')
  | .kDynamic true =>
    match splitAtFirst ';' s with
    | none => !s.isEmpty && s.all (· ≠ '/')
    | some (a, qs) => !a.isEmpty && a.all (· ≠ '/') && qs.all (· ≠ '/')
  | .kStar false => !s.isEmpty && s.all dotChar
  | .kStar true =>
    match splitAtFirst ';' s with
    | none => !s.isEmpty
    | some (a, qs) => !a.isEmpty && qs.all (· ≠ '/')
  | .kEmpty => s.isEmpty

/-- The captures of one full-path match: one entry per capture group, in
group order; `none` is an unmatched group (`undefined` in JS). -/
abbrev Caps := List (Option Str)

/-- Matching of the trailing optional query group `(?:;([^/]*))?` of a
fragment: the group is tried first (JS greedy option), with the inner
`[^/]*` trying longest runs first; on failure the group is skipped and
its capture is `undefined`.  `cont` matches the rest of the combined
regex against the rest of the path. -/
def matchQueryTail (cont : Str → Option Caps) (s : Str) : Option Caps :=
  let withQ : Option Caps :=
    match s with
    | ';' :: rest =>
      let m := countWhile (fun c => c ≠ '/') rest
      firstSome
        (fun k => (cont (rest.drop k)).map (fun caps => some (rest.take k) :: caps))
        (descFrom0 m)
    | _ => none
  match withQ with
  | some caps => some caps
  | none => (cont s).map (fun caps => none :: caps)

/-- Anchored match of the combined regex
`'^' + ('/' + frag)* + '$'` against a whole path, with JS backtracking
semantics (greedy quantifiers try longest first, the optional query group
tries present-first); returns the capture list of the first succeeding
decomposition, as `String.prototype.match` does. -/
def matchFrags : List Frag → Str → Option Caps
  | [], s => if s.isEmpty then some [] else none
  | f :: fs, s =>
    match s with
    | [] => none
    | c :: rest =>
      if c = '/' then
        match f with
        | .fStatic t q =>
          match matchStaticPath t rest with
          | some r2 =>
            if q then matchQueryTail (matchFrags fs) r2 else matchFrags fs r2
          | none => none
        | .fDynamic q =>
          if q then
            let m := countWhile (fun c => c ≠ '/' && c ≠ ';') rest
            firstSome
              (fun k =>
                (matchQueryTail (matchFrags fs) (rest.drop k)).map
                  (fun caps => some (rest.take k) :: caps))
              (descFrom m)
          else
            let m := countWhile (fun c => c ≠ '/') rest
            firstSome
              (fun k =>
                (matchFrags fs (rest.drop k)).map
                  (fun caps => some (rest.take k) :: caps))
              (descFrom m)
        | .fStar q =>
          if q then
            let m := countWhile (fun c => c ≠ ';') rest
            firstSome
              (fun k =>
                (matchQueryTail (matchFrags fs) (rest.drop k)).map
                  (fun caps => some (rest.take k) :: caps))
              (descFrom m)
          else
            let m := countWhile dotChar rest
            firstSome
              (fun k =>
                (matchFrags fs (rest.drop k)).map
                  (fun caps => some (rest.take k) :: caps))
              (descFrom m)
        | .fEpsilon => matchQueryTail (matchFrags fs) rest
      else none

/-! ## The trie of states -/

/-- One entry of a terminal node's handler chain.  `add` pushes
`{handler: route.handler, names: names}` with *no* `hasQuery` property;
reading the absent property in `findHandler` yields `undefined` (falsy),
which the embedding records as `hasQuery := false`. -/
structure Handler where
  handler : Str
  names : List Str
  hasQuery : Bool
deriving DecidableEq, Repr

/-- The data a terminal (accepting) state carries: the combined-path
regex (as its fragment sequence), the handler chain, and the specificity
counter. -/
structure Terminal where
  frags : List Frag
  handlers : List Handler
  types : Types
deriving DecidableEq, Repr

/-- A trie node (`State`): its anchored regex key, its children, and its
terminal data if accepting.  The root's key is never read; it is set to
`kEmpty` here. -/
inductive State where
  | node (key : SegKey) (nextStates : List State) (terminal : Option Terminal)

/-- The node's regex key. -/
def State.key : State → SegKey
  | .node k _ _ => k

/-- The node's children (`nextStates`). -/
def State.children : State → List State
  | .node _ ch _ => ch

/-- The node's terminal data (`handlers` / `regex` / `types`), when set. -/
def State.terminal : State → Option Terminal
  | .node _ _ t => t

/-- Replaces the first child whose key is `k` with `c`, or appends `c`
when no child has that key (the shape `State.put` leaves `nextStates`
in after one insertion step). -/
def replaceOrAppend (k : SegKey) (c : State) : List State → List State
  | [] => [c]
  | x :: xs => if x.key = k then c :: xs else x :: replaceOrAppend k c xs

/-- The descent loop of `add`: repeated `currentState.put(segmentRegex)`
followed by the terminal assignments `currentState.handlers = …;
currentState.regex = …; currentState.types = …` at the final node.
`put` reuses the (first) existing child with the same key and otherwise
appends a fresh one; terminal data at the end node is overwritten. -/
def insertPath : State → List SegKey → Terminal → State
  | .node k ch _, [], term => .node k ch (some term)
  | .node k ch t, key :: rest, term =>
    let child :=
      match ch.find? (fun c => c.key = key) with
      | some c => c
      | none => .node key [] none
    .node k (replaceOrAppend key (insertPath child rest term) ch) t

/-! ## The recognizer object -/

/-- A registered route level `{path, handler}`. -/
structure Route where
  path : Str
  handler : Str
deriving DecidableEq, Repr

/-- The value stored in the name registry: the full segment sequence
(each with its query-owner marker, an `Option Str` recording the
`segment.query = route.handler` assignment) and the handler chain. -/
structure NamedRoute where
  segments : List (Segment × Option Str)
  handlers : List Handler
deriving DecidableEq, Repr

/-- The `RouteRecognizer` object: the trie root and the name registry. -/
structure RouteRecognizer where
  rootState : State
  names : List (Str × NamedRoute)

/-- `new RouteRecognizer()`. -/
def emptyRecognizer : RouteRecognizer :=
  { rootState := .node .kEmpty [] none, names := [] }

/-- JS truthiness of a segment's `query` marker (`undefined` or the empty
handler string are falsy). -/
def qmark : Option Str → Bool
  | some h => !h.isEmpty
  | none => false

/-- Attaches the `segment.query = route.handler` marker to the last
segment of one level's parse result (`isLastSegment` in `add`). -/
def markLast (h : Str) : List Segment → List (Segment × Option Str)
  | [] => []
  | [s] => [(s, some h)]
  | s :: rest => (s, none) :: markLast h rest

/-- The trie key `'^' + segment.regex() + '$'` of a marked segment.
(`Segment.epsilon` never reaches `put`; its key value is irrelevant.) -/
def keyOf : Segment × Option Str → SegKey
  | (.static t, q) => .kStatic t (qmark q)
  | (.dynamic _, q) => .kDynamic (qmark q)
  | (.star _, q) => .kStar (qmark q)
  | (.epsilon, _) => .kEmpty

/-- The combined-regex fragment `'/' + segment.regex()` of a marked
segment. -/
def fragOf : Segment × Option Str → Frag
  | (.static t, q) => .fStatic t (qmark q)
  | (.dynamic _, q) => .fDynamic (qmark q)
  | (.star _, q) => .fStar (qmark q)
  | (.epsilon, _) => .fEpsilon

/-- Per-level parse results of one `add` call: each level's path is
parsed and its last segment receives the query marker. -/
def addLevels (routes : List Route) : List (List (Segment × Option Str) × Str) :=
  routes.map (fun route =>
    (markLast route.handler (parse route.path), route.handler))

/-- The marked segments accumulated across one registration's levels
(`allSegments` before the `isEmpty` branch). -/
def addAllSegments (routes : List Route) : List (Segment × Option Str) :=
  ((addLevels routes).map Prod.fst).flatten

/-- The handler chain pushed by `add`: one `{handler, names}` record per
level (and no `hasQuery` property — hence `false`). -/
def addHandlers (routes : List Route) : List Handler :=
  (addLevels routes).map (fun lv =>
    { handler := lv.2, names := segNames (lv.1.map Prod.fst), hasQuery := false })

/-- The trie keys `add` descends: the marked segments' keys, or the
single `'^$'` key for an entirely empty registration. -/
def addKeys (routes : List Route) : List SegKey :=
  if (addAllSegments routes).isEmpty then [.kEmpty]
  else (addAllSegments routes).map keyOf

/-- The combined-regex fragments of the registration (for an empty one,
the single `EpsilonSegment` fragment). -/
def addFrags (routes : List Route) : List Frag :=
  if (addAllSegments routes).isEmpty then [.fEpsilon]
  else (addAllSegments routes).map fragOf

/-- The segment list stored in the name registry — for an empty
registration, a single `EpsilonSegment` whose query marker is the last
handler's name.  (`add([])` would fault in JS reading
`handlers[-1].handler`; that never-exercised case is a `none` marker.) -/
def addStoredSegments (routes : List Route) : List (Segment × Option Str) :=
  if (addAllSegments routes).isEmpty then
    [((Segment.epsilon : Segment), ((addHandlers routes).getLast?).map Handler.handler)]
  else addAllSegments routes

/-- The terminal data `add` writes at the final node. -/
def addTerminal (routes : List Route) : Terminal :=
  ⟨addFrags routes, addHandlers routes,
   countTypes ⟨0, 0, 0⟩ ((addAllSegments routes).map Prod.fst)⟩

/-- `RouteRecognizer.add(routes, options)`: descend the trie over the
registration's keys (`put` per segment), write the terminal data —
handler chain, combined regex, cumulative type counts — at the final
node, and, when `options.as` names the route, store
`{segments, handlers}` in the registry. -/
def addRoutes (r : RouteRecognizer) (routes : List Route) (as_ : Option Str) :
    RouteRecognizer :=
  { rootState := insertPath r.rootState (addKeys routes) (addTerminal routes),
    names :=
      match as_ with
      | some n =>
        objInsert n ⟨addStoredSegments routes, addHandlers routes⟩ r.names
      | none => r.names }

/-- Folds a whole registration sequence from a fresh recognizer. -/
def buildRecognizer (regs : List (List Route × Option Str)) : RouteRecognizer :=
  regs.foldl (fun r reg => addRoutes r reg.1 reg.2) emptyRecognizer

/-! ## Recognition -/

/-- `recognizeSegment(states, segment)`: children of the frontier whose
key matches the segment. -/
def recognizeSegment (states : List State) (seg : Str) : List State :=
  (states.map (fun st => st.children.filter (fun c => segMatches c.key seg))).flatten

/-- The frontier loop of `recognize`, including the early `break` when
the frontier empties. -/
def walkStates (states : List State) : List Str → List State
  | [] => states
  | seg :: rest =>
    let next := recognizeSegment states seg
    if next.isEmpty then next else walkStates next rest

/-- The types of a state, read from its terminal data (only ever applied
to accepting states). -/
def stypes (s : State) : Types :=
  match s.terminal with
  | some t => t.types
  | none => ⟨0, 0, 0⟩

/-- The comparator of `sortSolutions` as a (total, transitive) boolean
order: ascending lexicographically on `(stars, dynamics, statics)`. -/
def typesLe (a b : Types) : Bool :=
  a.stars < b.stars ||
    (a.stars = b.stars &&
      (a.dynamics < b.dynamics ||
        (a.dynamics = b.dynamics && a.statics ≤ b.statics)))

/-- One step of insertion sort by the `sortSolutions` comparator. -/
def insertSorted (x : State) : List State → List State
  | [] => [x]
  | y :: ys =>
    if typesLe (stypes x) (stypes y) then x :: y :: ys else y :: insertSorted x ys

/-- `sortSolutions(states)`: sorts ascending by
`(stars, dynamics, statics)`.  (JS `Array.prototype.sort` fixes only the
comparator, not the order of ties; the embedding uses insertion sort,
whose head is always a comparator-minimal element, which is all the
engine relies on.) -/
def sortSolutions (l : List State) : List State :=
  l.foldr insertSorted []

/-- The normalization of `recognize`: `pathLen` is taken *before* the
leading `'/'` is prepended, and the trailing-separator test reads
`path.charAt(pathLen - 1)` of the possibly-grown string, stripping to
`path.substr(0, pathLen - 1)`. -/
def normalizePath (path : Str) : Str :=
  let pathLen := path.length
  let path := if path.head? = some '/' then path else '/' :: path
  if pathLen > 1 && path.getD (pathLen - 1) ' ' == '/' then
    path.take (pathLen - 1)
  else path

/-- One result entry `{handler, params, isDynamic, query}`.  A parameter
bound to an unmatched capture keeps the JS value `undefined`, modelled as
`none`. -/
structure RecResult where
  handler : Str
  params : List (Str × Option Str)
  isDynamic : Bool
  query : QueryMap
deriving DecidableEq, Repr

/-- The per-handler capture walk of `findHandler`: consume
`names.length` captures into `params`, then — only when the handler's
`hasQuery` is set — one more capture, decoded unless absent or empty.
`captures[i]` beyond the array reads `undefined` (`getD … none`). -/
def handlerResults (caps : Caps) (hs : List Handler) (idx : Nat) : List RecResult :=
  match hs with
  | [] => []
  | h :: rest =>
    let params := (List.range h.names.length).foldl
      (fun m j => objInsert (h.names.getD j []) (caps.getD (idx + j) none) m) []
    let idx := idx + h.names.length
    let (query, idx) :=
      if h.hasQuery then
        (match caps.getD idx none with
          | some qs => if qs.isEmpty then [] else deserializeQueryString qs
          | none => [],
         idx + 1)
      else ([], idx)
    { handler := h.handler, params := params,
      isDynamic := !h.names.isEmpty, query := query } :: handlerResults caps rest idx

/-- `findHandler(state, path)`: match the whole path against the terminal
node's combined regex and walk the handler chain over the captures.  (A
failed whole-path match would make the JS code fault on `null`; it is
modelled as `none` and is unreachable for the frontiers that arise.) -/
def findHandler (t : Terminal) (path : Str) : Option (List RecResult) :=
  (matchFrags t.frags path).map (fun caps => handlerResults caps t.handlers 0)

/-- The terminal frontier of `recognize` on a path: walk the normalized
path's segments (skipping the empty segment before the leading
separator) and keep the states that carry handlers. -/
def recognizeSolutions (r : RouteRecognizer) (path : Str) : List State :=
  let path := normalizePath path
  let segments := splitChar '/' path
  (walkStates [r.rootState] (segments.drop 1)).filter
    (fun st => st.terminal.isSome)

/-- The state `recognize` selects: `sortSolutions(solutions)[0]`. -/
def recognizeChosen (r : RouteRecognizer) (path : Str) : Option State :=
  (sortSolutions (recognizeSolutions r path)).head?

/-- `RouteRecognizer.recognize(path)`: the handler chain of the chosen
solution, or `undefined` (`none`) when no terminal state remains. -/
def recognize (r : RouteRecognizer) (path : Str) : Option (List RecResult) :=
  match recognizeChosen r path with
  | some st =>
    match st.terminal with
    | some t => findHandler t (normalizePath path)
    | none => none
  | none => none

/-! ## Generation -/

/-- `segment.generate(params)`: a static segment renders its text, a
dynamic/star segment renders `params[name]` — which, when the name is
absent, is `undefined` and is coerced by `+` to the string
`"undefined"` — and an epsilon segment renders nothing. -/
def segGenerate (params : List (Str × Str)) : Segment → Str
  | .static t => t
  | .dynamic n => (objGet n params).getD "undefined".toList
  | .star n => (objGet n params).getD "undefined".toList
  | .epsilon => []

/-- The error message of `generate` and `handlersFor`. -/
def noRouteMsg (name : Str) : Str :=
  "There is no route named ".toList ++ name

/-- The loop body of `generate`: emit `'/' + segment.generate(params)`
and, when the segment carries a truthy query marker, `queries[marker]`
exists (any object is truthy) and its serialization is nonempty, append
`';' + serializeQuery(…)`. -/
def generateStep (params : List (Str × Str)) (queries : List (Str × QueryMap))
    (out : Str) (sq : Segment × Option Str) : Str :=
  let out := out ++ '/' :: segGenerate params sq.1
  if qmark sq.2 then
    match sq.2 with
    | some owner =>
      match objGet owner queries with
      | some qm =>
        let qs := serializeQuery qm
        if qs.isEmpty then out else out ++ ';' :: qs
      | none => out
    | none => out
  else out

/-- `RouteRecognizer.generate(name, params, queries)`: walk the stored
segments with `generateStep`, finally ensuring a leading separator.  An
unknown name is an error. -/
def generate (r : RouteRecognizer) (name : Str) (params : List (Str × Str))
    (queries : List (Str × QueryMap)) : Except Str Str :=
  match objGet name r.names with
  | none => .error (noRouteMsg name)
  | some route =>
    let output := route.segments.foldl (generateStep params queries) []
    let output := if output.head? = some '/' then output else '/' :: output
    .ok output

/-- `RouteRecognizer.handlersFor(name)`: the stored handler chain, or the
"no route named" error. -/
def handlersFor (r : RouteRecognizer) (name : Str) : Except Str (List Handler) :=
  match objGet name r.names with
  | none => .error (noRouteMsg name)
  | some route => .ok route.handlers

/-- `RouteRecognizer.hasRoute(name)`: `!!this.names[name]`. -/
def hasRoute (r : RouteRecognizer) (name : Str) : Bool :=
  (objGet name r.names).isSome

/-! ## Receiver threading

The four query-phase methods contain no assignment to `this.rootState`,
`this.names`, or any node reachable from them (the only in-place
operation, `solutions.sort`, reorders a local array of references).  The
method-call embedding therefore returns the receiver it was given. -/

/-- `recognize` as a method call: result plus the receiver after the
call. -/
def recognizeCall (r : RouteRecognizer) (path : Str) :
    Option (List RecResult) × RouteRecognizer :=
  (recognize r path, r)

/-- `generate` as a method call: result plus the receiver after the
call. -/
def generateCall (r : RouteRecognizer) (name : Str) (params : List (Str × Str))
    (queries : List (Str × QueryMap)) : Except Str Str × RouteRecognizer :=
  (generate r name params queries, r)

/-- `handlersFor` as a method call: result plus the receiver after the
call. -/
def handlersForCall (r : RouteRecognizer) (name : Str) :
    Except Str (List Handler) × RouteRecognizer :=
  (handlersFor r name, r)

/-- `hasRoute` as a method call: result plus the receiver after the
call. -/
def hasRouteCall (r : RouteRecognizer) (name : Str) :
    Bool × RouteRecognizer :=
  (hasRoute r name, r)

/-! ## Concrete route tables used by the claims -/

/-- `add([{path:"/posts/:id", handler:"post"}], {as:"post"})`. -/
def tblPost : RouteRecognizer :=
  addRoutes emptyRecognizer [⟨"/posts/:id".toList, "post".toList⟩] (some "post".toList)

/-- The nested declaration `/posts` with child `/:id` under handlers
`"posts"`, `"post"`, as flattened by the DSL into one `add` call. -/
def tblNested : RouteRecognizer :=
  addRoutes emptyRecognizer
    [⟨"/posts".toList, "posts".toList⟩, ⟨"/:id".toList, "post".toList⟩] none

/-- `add([{path:"/posts", handler:"list"}])` (the terminal segment of a
level always receives the query marker). -/
def tblList : RouteRecognizer :=
  addRoutes emptyRecognizer [⟨"/posts".toList, "list".toList⟩] none

/-- `add([{path:"/posts", handler:"posts"}])`. -/
def tblPosts : RouteRecognizer :=
  addRoutes emptyRecognizer [⟨"/posts".toList, "posts".toList⟩] none

/-- `/posts/new` (static) and `/posts/:id` (dynamic) registered together. -/
def tblAmbig : RouteRecognizer :=
  addRoutes
    (addRoutes emptyRecognizer [⟨"/posts/new".toList, "new".toList⟩] none)
    [⟨"/posts/:id".toList, "post".toList⟩] none

/-- `/posts` registered, then `/posts/new`. -/
def tblShare : RouteRecognizer :=
  addRoutes
    (addRoutes emptyRecognizer [⟨"/posts".toList, "posts".toList⟩] none)
    [⟨"/posts/new".toList, "new".toList⟩] none

/-! ## C2 -/

/-- **C2** (code bug): with `/posts` nested over `/:id`, the chain for
`recognize("/posts/5")` does *not* carry `params = {id: "5"}`.  `add`
inserts a query-capture group after every level's last segment, but it
never sets `hasQuery` on the handler records, so `findHandler` — which
skips a capture only `if (handler.hasQuery)` — never consumes the outer
level's query capture, and the `"post"` entry binds `id` to that (absent,
`undefined`) capture instead of to `"5"`. -/
theorem nested_params_misaligned :
    recognize tblNested "/posts/5".toList =
      some
        [⟨"posts".toList, [], false, []⟩,
         ⟨"post".toList, [("id".toList, none)], true, []⟩] := by
  decide

/-! ## C3 -/

/-- **C3** (code bug): `recognize("/posts;sort=asc;archived")` on the
`"list"` table yields `query = {}`, not `{sort:"asc", archived:true}`:
the matrix-query capture is produced by the combined regex, but since
`add` never sets `hasQuery` on any handler record, the
`deserializeQueryString` branch of `findHandler` is unreachable. -/
theorem query_never_decoded :
    recognize tblList "/posts;sort=asc;archived".toList =
      some [⟨"list".toList, [], false, []⟩] := by
  decide

/-! ## C4 -/

/-- **C4** (code bug): recognizing `"posts/"` is *not* the same as
recognizing `"/posts"`.  `recognize` computes `pathLen` before prepending
the leading `/`, then tests `path.charAt(pathLen - 1)` of the *grown*
string, so for an input lacking the leading separator the trailing
separator survives, the split leaves a trailing empty segment, and the
match fails. -/
theorem trailing_slash_not_stripped :
    recognize tblPosts "posts/".toList = none ∧
    recognize tblPosts "/posts".toList =
      some [⟨"posts".toList, [], false, []⟩] := by
  constructor
  · decide
  · decide

/-! ## C7 -/

/-- **C7**: `hasRoute` is `false` exactly for names absent from the
registry, and `generate` / `handlersFor` return the "There is no route
named …" failure exactly for absent names (so a registered name never
raises on lookup, and an absent one never yields a sentinel). -/
theorem unknown_name_errors (r : RouteRecognizer) (name : Str)
    (params : List (Str × Str)) (queries : List (Str × QueryMap)) :
    (hasRoute r name = false ↔ objGet name r.names = none) ∧
    (generate r name params queries = .error (noRouteMsg name) ↔
      objGet name r.names = none) ∧
    (handlersFor r name = .error (noRouteMsg name) ↔
      objGet name r.names = none) := by
  unfold hasRoute generate handlersFor
  cases h : objGet name r.names <;> simp [h]

/-! ## C9 -/

/-- **C9**: `recognize`, `generate`, `handlersFor` and `hasRoute` are
pure reads: as method calls they return the receiver — trie and name
registry — exactly as it was (none of their bodies assigns to
`this.rootState`, `this.names`, or any node reachable from them; the one
in-place operation, `solutions.sort`, reorders a local array). -/
theorem query_ops_pure (r : RouteRecognizer) (path name : Str)
    (params : List (Str × Str)) (queries : List (Str × QueryMap)) :
    (recognizeCall r path).2 = r ∧
    (recognizeCall r path).1 = recognize r path ∧
    (generateCall r name params queries).2 = r ∧
    (generateCall r name params queries).1 = generate r name params queries ∧
    (handlersForCall r name).2 = r ∧
    (hasRouteCall r name).2 = r := by
  exact ⟨rfl, rfl, rfl, rfl, rfl, rfl⟩

/-! ## C10 -/

/-- **C10**: `generate` never validates `params`: for any registered
name it returns a path (the only failure is an unknown name), and a
dynamic segment whose parameter is absent renders the string form of
`undefined` — concretely, `generate("post", {}, {})` on `/posts/:id`
returns `"/posts/undefined"`. -/
theorem generate_no_validation :
    (∀ (r : RouteRecognizer) (name : Str) (params : List (Str × Str))
        (queries : List (Str × QueryMap)),
        (objGet name r.names).isSome = true →
        ∃ out, generate r name params queries = .ok out) ∧
    generate tblPost "post".toList [] [] = .ok "/posts/undefined".toList := by
  constructor
  · intro r name params queries h
    unfold generate
    cases hg : objGet name r.names
    · rw [hg] at h; simp at h
    · exact ⟨_, rfl⟩
  · rfl

/-- Witness for the universally quantified part of the C10 theorem, at
the `/posts/:id` table with an unrelated params mapping. -/
theorem generate_no_validation_witness :
    (objGet "post".toList tblPost.names).isSome = true ∧
    ∃ out, generate tblPost "post".toList [("x".toList, "y".toList)] [] =
      .ok out :=
  ⟨by decide,
   generate_no_validation.1 tblPost "post".toList
     [("x".toList, "y".toList)] [] (by decide)⟩

/-! ## C6, counterexample -/

/-- **C6** (counterexample): a flag-only key does *not* decode back to
boolean `true`: `serializeQuery` tests only truthiness, so `{archived:
true}` is emitted as `"archived=true"`, which decodes to the *string*
`"true"`. -/
theorem flag_value_roundtrip_fails :
    deserializeQueryString (serializeQuery [("archived".toList, QVal.tru)]) ≠
      [("archived".toList, QVal.tru)] := by
  decide

/-! ## C8, counterexample -/

/-- **C8** (counterexample): registering `/posts` and then `/posts/new`
does *not* share the `posts` trie edge: the terminal segment of a level
gets the query marker, which appends `(?:;([^/]*))?` to its regex key,
so the root ends up with two children, keyed
`^posts(?:;([^/]*))?$` and `^posts$`. -/
theorem posts_edge_not_shared :
    tblShare.rootState.children.map State.key =
      [.kStatic "posts".toList true, .kStatic "posts".toList false] := by
  decide

/-! ## C5: the chosen solution is comparator-minimal -/

theorem typesLe_refl (a : Types) : typesLe a a = true := by
  simp [typesLe]

theorem typesLe_total (a b : Types) : typesLe a b = true ∨ typesLe b a = true := by
  simp only [typesLe, Bool.or_eq_true, Bool.and_eq_true, decide_eq_true_eq]
  omega

theorem typesLe_trans {a b c : Types} (h1 : typesLe a b = true)
    (h2 : typesLe b c = true) : typesLe a c = true := by
  simp only [typesLe, Bool.or_eq_true, Bool.and_eq_true, decide_eq_true_eq] at *
  omega

/-- The head of `sortSolutions` is a member that is `typesLe`-below every
member of the input list. -/
theorem sortSolutions_head_min (l : List State) (hne : l ≠ []) :
    ∃ st, (sortSolutions l).head? = some st ∧ st ∈ l ∧
      ∀ s ∈ l, typesLe (stypes st) (stypes s) = true := by
  induction l with
  | nil => exact absurd rfl hne
  | cons a t ih =>
    cases t with
    | nil =>
      refine ⟨a, rfl, List.mem_singleton.2 rfl, ?_⟩
      intro s hs
      rw [List.mem_singleton.1 hs]
      exact typesLe_refl _
    | cons b t' =>
      obtain ⟨st, hhead, hmem, hmin⟩ := ih (by simp)
      have hsort : sortSolutions (a :: b :: t') = insertSorted a (sortSolutions (b :: t')) := rfl
      obtain ⟨rest, hrest⟩ : ∃ rest, sortSolutions (b :: t') = st :: rest := by
        cases hl : sortSolutions (b :: t') with
        | nil => rw [hl] at hhead; exact absurd hhead (by simp)
        | cons x xs =>
          rw [hl] at hhead
          exact ⟨xs, by simpa using congrArg (fun o => (Option.getD o x) :: xs) hhead⟩
      rw [hsort, hrest]
      by_cases hle : typesLe (stypes a) (stypes st) = true
      · refine ⟨a, ?_, List.mem_cons_self .., ?_⟩
        · simp [insertSorted, hle]
        · intro s hs
          rcases List.mem_cons.1 hs with h | h
          · rw [h]; exact typesLe_refl _
          · exact typesLe_trans hle (hmin s h)
      · refine ⟨st, ?_, List.mem_cons_of_mem _ hmem, ?_⟩
        · simp [insertSorted, hle]
        · intro s hs
          rcases List.mem_cons.1 hs with h | h
          · rw [h]
            rcases typesLe_total (stypes a) (stypes st) with h' | h'
            · exact absurd h' hle
            · exact h'
          · exact hmin s h

/-- **C5**: whenever more than one terminal node remains after consuming
the whole input path, the state `recognize` selects
(`sortSolutions(solutions)[0]`) is one of the solutions and is minimal
under the ascending lexicographic order on `(stars, dynamics, statics)`:
its tuple is `typesLe`-below every remaining terminal's tuple. -/
theorem chosen_solution_minimal (r : RouteRecognizer) (path : Str)
    (h : 1 < (recognizeSolutions r path).length) :
    ∃ st, recognizeChosen r path = some st ∧
      st ∈ recognizeSolutions r path ∧
      ∀ s ∈ recognizeSolutions r path, typesLe (stypes st) (stypes s) = true := by
  have hne : recognizeSolutions r path ≠ [] := by
    intro he
    rw [he] at h
    simp at h
  obtain ⟨st, h1, h2, h3⟩ := sortSolutions_head_min _ hne
  exact ⟨st, h1, h2, h3⟩

/-- Witness for C5 at the table registering `/posts/new` and
`/posts/:id`: the path `"/posts/new"` leaves two terminal candidates. -/
theorem chosen_solution_minimal_witness :
    1 < (recognizeSolutions tblAmbig "/posts/new".toList).length ∧
    ∃ st, recognizeChosen tblAmbig "/posts/new".toList = some st ∧
      st ∈ recognizeSolutions tblAmbig "/posts/new".toList ∧
      ∀ s ∈ recognizeSolutions tblAmbig "/posts/new".toList,
        typesLe (stypes st) (stypes s) = true :=
  ⟨by decide, chosen_solution_minimal tblAmbig "/posts/new".toList (by decide)⟩

/-! ## C8: no two children of a node share a regex key -/

/-- Every node of the (sub)trie has pairwise-distinct child keys. -/
inductive KeysDistinct : State → Prop where
  | mk (k : SegKey) (ch : List State) (t : Option Terminal) :
      (ch.map State.key).Nodup →
      (∀ c ∈ ch, KeysDistinct c) →
      KeysDistinct (.node k ch t)

theorem insertPath_key (s : State) (p : List SegKey) (term : Terminal) :
    (insertPath s p term).key = s.key := by
  cases s with | node k ch t => cases p <;> rfl

theorem replaceOrAppend_keys_of_mem {k : SegKey} {c : State}
    (hc : c.key = k) :
    ∀ {ch : List State}, k ∈ ch.map State.key →
      (replaceOrAppend k c ch).map State.key = ch.map State.key := by
  intro ch
  induction ch with
  | nil => intro h; simp at h
  | cons x xs ih =>
    intro h
    by_cases hx : x.key = k
    · simp [replaceOrAppend, hx, hc]
    · have : k ∈ xs.map State.key := by
        rcases List.mem_cons.1 h with h' | h'
        · exact absurd h'.symm hx
        · exact h'
      simp [replaceOrAppend, hx, ih this]

theorem replaceOrAppend_of_not_mem {k : SegKey} {c : State} :
    ∀ {ch : List State}, k ∉ ch.map State.key →
      replaceOrAppend k c ch = ch ++ [c] := by
  intro ch
  induction ch with
  | nil => intro _; rfl
  | cons x xs ih =>
    intro h
    have hx : ¬ x.key = k := fun he => h (by simp [he])
    have : k ∉ xs.map State.key := fun hm => h (by simp [hm])
    simp [replaceOrAppend, hx, ih this]

theorem mem_replaceOrAppend {k : SegKey} {c y : State} :
    ∀ {ch : List State}, y ∈ replaceOrAppend k c ch → y = c ∨ y ∈ ch := by
  intro ch
  induction ch with
  | nil => intro h; simpa [replaceOrAppend] using h
  | cons x xs ih =>
    intro h
    by_cases hx : x.key = k
    · simp only [replaceOrAppend, if_pos hx] at h
      rcases List.mem_cons.1 h with h' | h'
      · exact .inl h'
      · exact .inr (List.mem_cons_of_mem _ h')
    · simp only [replaceOrAppend, if_neg hx] at h
      rcases List.mem_cons.1 h with h' | h'
      · exact .inr (h' ▸ List.mem_cons_self ..)
      · rcases ih h' with h'' | h''
        · exact .inl h''
        · exact .inr (List.mem_cons_of_mem _ h'')

/-- Descending a fresh (childless) node builds a chain with distinct
(singleton) child sets throughout. -/
theorem insertPath_fresh_distinct (k : SegKey) :
    ∀ (rest : List SegKey) (term : Terminal),
      KeysDistinct (insertPath (.node k [] none) rest term) := by
  intro rest
  induction rest generalizing k with
  | nil => exact fun term => .mk _ _ _ (by simp) (by simp)
  | cons k2 r ih =>
    intro term
    refine .mk _ _ _ (by simp [replaceOrAppend]) ?_
    intro c hc
    simp only [replaceOrAppend, List.find?_nil, List.mem_singleton] at hc
    rw [hc]
    exact ih k2 term

/-- `put`-style insertion preserves distinctness of child keys at every
node: it reuses the first child with the descended key and only appends
when none exists. -/
theorem insertPath_distinct {s : State} (p : List SegKey) (term : Terminal)
    (h : KeysDistinct s) : KeysDistinct (insertPath s p term) := by
  induction p generalizing s with
  | nil =>
    cases s with | node k ch t =>
    cases h with | mk _ _ _ hnd hch => exact .mk _ _ _ hnd hch
  | cons key rest ih =>
    cases s with | node k ch t =>
    cases h with | mk _ _ _ hnd hch =>
    cases hf : ch.find? (fun c => c.key = key) with
    | none =>
      have hnotmem : key ∉ ch.map State.key := by
        intro hm
        obtain ⟨c, hcmem, hck⟩ := List.mem_map.1 hm
        have := List.find?_eq_none.1 hf c hcmem
        simp [hck] at this
      simp only [insertPath, hf]
      rw [replaceOrAppend_of_not_mem hnotmem]
      refine .mk _ _ _ ?_ ?_
      · rw [List.map_append]
        simp only [List.map_cons, List.map_nil]
        rw [insertPath_key]
        exact List.Nodup.append hnd (by simp)
          (by simpa [List.disjoint_right] using hnotmem)
      · intro c hc
        rcases List.mem_append.1 hc with h' | h'
        · exact hch c h'
        · rw [List.mem_singleton.1 h']
          exact insertPath_fresh_distinct key rest term
    | some c0 =>
      have hc0key : c0.key = key := by
        have := List.find?_some hf
        simpa using this
      have hc0mem : c0 ∈ ch := List.mem_of_find?_eq_some hf
      have hkeymem : key ∈ ch.map State.key :=
        List.mem_map.2 ⟨c0, hc0mem, hc0key⟩
      simp only [insertPath, hf]
      refine .mk _ _ _ ?_ ?_
      · rw [replaceOrAppend_keys_of_mem (by rw [insertPath_key]; exact hc0key) hkeymem]
        exact hnd
      · intro c hc
        rcases mem_replaceOrAppend hc with h' | h'
        · rw [h']
          exact ih (hch c0 hc0mem)
        · exact hch c h'

/-- **C8** (amended): after any sequence of `add` calls no trie node has
two children with identical regex keys (insertion reuses the existing
same-key child); registering `/posts` and then `/posts/new`, both paths
recognize successfully — although the `posts` edge is *not* shared,
because the terminal segment's key carries the query-capture suffix (see
the counterexample). -/
theorem trie_child_keys_distinct :
    (∀ regs : List (List Route × Option Str),
        KeysDistinct (buildRecognizer regs).rootState) ∧
    recognize tblShare "/posts".toList =
      some [⟨"posts".toList, [], false, []⟩] ∧
    recognize tblShare "/posts/new".toList =
      some [⟨"new".toList, [], false, []⟩] := by
  refine ⟨?_, by decide, by decide⟩
  intro regs
  have base : KeysDistinct emptyRecognizer.rootState := .mk _ _ _ (by simp) (by simp)
  have step : ∀ (regs : List (List Route × Option Str)) (r : RouteRecognizer),
      KeysDistinct r.rootState →
      KeysDistinct ((regs.foldl (fun r reg => addRoutes r reg.1 reg.2) r).rootState) := by
    intro regs
    induction regs with
    | nil => exact fun r h => h
    | cons reg rest ih =>
      intro r h
      exact ih _ (insertPath_distinct _ _ h)
  exact step regs emptyRecognizer base

/-! ## C6: round trip of the query codec on plain mappings -/

/-- A string safe for the codec: no `';'` or `'='` characters and no
`"%3B"`/`"%3D"` substrings (the decoder's unescape targets). -/
def plainStr (s : Str) : Bool :=
  s.all (fun c => c ≠ ';' && c ≠ '=') &&
    !containsSub "%3B".toList s && !containsSub "%3D".toList s

/-- A value safe for the codec: `true`, or a nonempty plain string. -/
def plainVal : QVal → Bool
  | .str s => !s.isEmpty && plainStr s
  | .tru => true

/-- What a value decodes back to after one encode/decode cycle: its JS
string form (so a flag becomes the string `"true"`). -/
def decodeImageVal : QVal → QVal
  | .str s => .str s
  | .tru => .str "true".toList

theorem decodeImageVal_eq (v : QVal) : decodeImageVal v = .str (qvalStr v) := by
  cases v <;> rfl

theorem containsSub_eq_false_of_not_mem {x : Char} {s : Str} (h : x ∉ s) :
    containsSub [x] s = false := by
  induction s with
  | nil => rfl
  | cons c cs ih =>
    have hx : ¬ x = c := fun he => h (he ▸ List.mem_cons_self ..)
    have : x ∉ cs := fun hm => h (List.mem_cons_of_mem _ hm)
    simp [containsSub, List.isPrefixOf, ih this, beq_eq_false_iff_ne, hx]

theorem replaceFirst_of_not_contains {sub repl s : Str}
    (h : containsSub sub s = false) : replaceFirst sub repl s = s := by
  induction s with
  | nil => rfl
  | cons c cs ih =>
    simp only [containsSub, Bool.or_eq_false_iff] at h
    simp [replaceFirst, h.1, ih h.2]

theorem plainStr_not_semi {s : Str} (h : plainStr s = true) : ';' ∉ s := by
  intro hm
  simp only [plainStr, Bool.and_eq_true, List.all_eq_true] at h
  have := h.1.1 _ hm
  simp at this

theorem plainStr_not_eq {s : Str} (h : plainStr s = true) : '=' ∉ s := by
  intro hm
  simp only [plainStr, Bool.and_eq_true, List.all_eq_true] at h
  have := h.1.1 _ hm
  simp at this

theorem plainStr_rser {s : Str} (h : plainStr s = true) : rser s = s := by
  have h1 : containsSub [';'] s = false :=
    containsSub_eq_false_of_not_mem (plainStr_not_semi h)
  have h2 : containsSub ['='] s = false :=
    containsSub_eq_false_of_not_mem (plainStr_not_eq h)
  unfold rser
  rw [replaceFirst_of_not_contains h1, replaceFirst_of_not_contains h2]

theorem plainStr_rdes {s : Str} (h : plainStr s = true) : rdes s = s := by
  simp only [plainStr, Bool.and_eq_true, Bool.not_eq_true'] at h
  unfold rdes
  rw [replaceFirst_of_not_contains h.2, replaceFirst_of_not_contains h.1.2]

theorem plainVal_qvalStr {v : QVal} (h : plainVal v = true) :
    plainStr (qvalStr v) = true := by
  cases v with
  | str s =>
    simp only [plainVal, Bool.and_eq_true] at h
    exact h.2
  | tru => decide

theorem qtruthy_of_plain {v : QVal} (h : plainVal v = true) :
    qtruthy v = true := by
  cases v with
  | str s =>
    simp only [plainVal, Bool.and_eq_true] at h
    simpa [qtruthy] using h.1
  | tru => rfl

theorem splitChar_of_not_mem {c : Char} {a : Str} (h : c ∉ a) :
    splitChar c a = [a] := by
  induction a with
  | nil => rfl
  | cons x xs ih =>
    have hx : ¬ x = c := fun he => h (he ▸ List.mem_cons_self ..)
    have hxs : c ∉ xs := fun hm => h (List.mem_cons_of_mem _ hm)
    simp [splitChar, hx, ih hxs]

theorem splitChar_append {c : Char} {a b : Str} (h : c ∉ a) :
    splitChar c (a ++ c :: b) = a :: splitChar c b := by
  induction a with
  | nil => simp [splitChar]
  | cons x xs ih =>
    have hx : ¬ x = c := fun he => h (he ▸ List.mem_cons_self ..)
    have hxs : c ∉ xs := fun hm => h (List.mem_cons_of_mem _ hm)
    rw [List.cons_append]
    simp only [splitChar, if_neg hx, ih hxs]

theorem splitChar_joinSep {c : Char} :
    ∀ {ps : List Str}, ps ≠ [] → (∀ p ∈ ps, c ∉ p) →
      splitChar c (joinSep c ps) = ps := by
  intro ps
  induction ps with
  | nil => intro h; exact absurd rfl h
  | cons p rest ih =>
    intro _ hmem
    cases rest with
    | nil => exact splitChar_of_not_mem (hmem p (List.mem_cons_self ..))
    | cons p2 r2 =>
      have : joinSep c (p :: p2 :: r2) = p ++ c :: joinSep c (p2 :: r2) := rfl
      rw [this, splitChar_append (hmem p (List.mem_cons_self ..))]
      rw [ih (by simp) (fun q hq => hmem q (List.mem_cons_of_mem _ hq))]

theorem serializePair_plain {kv : Str × QVal} (hk : plainStr kv.1 = true)
    (hv : plainVal kv.2 = true) :
    serializePair kv = kv.1 ++ '=' :: qvalStr kv.2 := by
  rw [serializePair, if_pos (qtruthy_of_plain hv), plainStr_rser hk,
    plainStr_rser (plainVal_qvalStr hv)]

theorem deserializePair_plain {k : Str} {v : QVal} {m : QueryMap}
    (hk : plainStr k = true) (hv : plainVal v = true) :
    deserializePair m (k ++ '=' :: qvalStr v) =
      objInsert k (QVal.str (qvalStr v)) m := by
  have hsplit : splitChar '=' (k ++ '=' :: qvalStr v) = [k, qvalStr v] := by
    rw [splitChar_append (plainStr_not_eq hk),
      splitChar_of_not_mem (plainStr_not_eq (plainVal_qvalStr hv))]
  rw [deserializePair]
  simp only [hsplit]
  rw [show ([k, qvalStr v].getD 0 []) = k from rfl,
    show ([k, qvalStr v].getD 1 []) = qvalStr v from rfl]
  simp only [List.length_cons, List.length_nil]
  rw [if_pos (by omega), plainStr_rdes hk, plainStr_rdes (plainVal_qvalStr hv)]

theorem objInsert_of_not_mem {k : Str} {v : α} :
    ∀ {m : List (Str × α)}, k ∉ m.map Prod.fst →
      objInsert k v m = m ++ [(k, v)] := by
  intro m
  induction m with
  | nil => intro _; rfl
  | cons kv rest ih =>
    intro h
    cases kv with | mk k' v' =>
    simp only [List.map_cons, List.mem_cons, not_or] at h
    have hk : ¬ k' = k := fun he => h.1 he.symm
    simp only [objInsert, if_neg hk, ih h.2, List.cons_append]

/-- Folding the decoded pairs of a distinct-key mapping appends them in
order. -/
theorem foldl_deserialize_plain :
    ∀ (q : QueryMap) (acc : QueryMap),
      (∀ kv ∈ q, plainStr kv.1 = true ∧ plainVal kv.2 = true) →
      (q.map Prod.fst).Nodup →
      (∀ kv ∈ q, kv.1 ∉ acc.map Prod.fst) →
      (q.map serializePair).foldl deserializePair acc =
        acc ++ q.map (fun kv => (kv.1, decodeImageVal kv.2)) := by
  intro q
  induction q with
  | nil => intro acc _ _ _; simp
  | cons kv rest ih =>
    intro acc hcond hnd hdisj
    have hk := (hcond kv (List.mem_cons_self ..)).1
    have hv := (hcond kv (List.mem_cons_self ..)).2
    rw [List.map_cons, List.foldl_cons, serializePair_plain hk hv,
      deserializePair_plain hk hv,
      objInsert_of_not_mem (hdisj kv (List.mem_cons_self ..))]
    rw [ih (acc ++ [(kv.1, QVal.str (qvalStr kv.2))])
      (fun x hx => hcond x (List.mem_cons_of_mem _ hx))
      (by simp only [List.map_cons] at hnd; exact hnd.of_cons)
      ?_]
    · rw [List.map_cons, decodeImageVal_eq]
      simp
    · intro x hx
      simp only [List.map_append, List.map_cons, List.map_nil, List.mem_append,
        List.mem_singleton]
      push_neg
      refine ⟨fun hm => hdisj x (List.mem_cons_of_mem _ hx) hm, ?_⟩
      intro he
      simp only [List.map_cons, List.nodup_cons] at hnd
      exact hnd.1 (he ▸ List.mem_map.2 ⟨x, hx, rfl⟩)

/-- **C6** (amended): for a nonempty mapping with pairwise-distinct keys
whose keys and string values contain no `';'` or `'='` characters and no
`"%3B"`/`"%3D"` substrings, and whose string values are nonempty,
decoding the encoding reconstructs the mapping pair-for-pair and
in order — except that flag-only keys (boolean `true`) come back as the
*string* `"true"` (they are serialized as `key=true`), and escaping
during encoding touches only the *first* `';'`/`'='` occurrence (such
characters are excluded here). -/
theorem query_roundtrip_plain (q : QueryMap) (hne : q ≠ [])
    (hcond : ∀ kv ∈ q, plainStr kv.1 = true ∧ plainVal kv.2 = true)
    (hnd : (q.map Prod.fst).Nodup) :
    deserializeQueryString (serializeQuery q) =
      q.map (fun kv => (kv.1, decodeImageVal kv.2)) := by
  have hpieces : ∀ p ∈ q.map serializePair, ';' ∉ p := by
    intro p hp
    obtain ⟨kv, hkv, hser⟩ := List.mem_map.1 hp
    have hk := (hcond kv hkv).1
    have hv := (hcond kv hkv).2
    rw [serializePair_plain hk hv] at hser
    intro hmem
    rw [← hser] at hmem
    rcases List.mem_append.1 hmem with h | h
    · exact plainStr_not_semi hk h
    · rcases List.mem_cons.1 h with h | h
      · exact absurd h (by decide)
      · exact plainStr_not_semi (plainVal_qvalStr hv) h
  rw [deserializeQueryString, serializeQuery,
    splitChar_joinSep (by simpa using hne) hpieces]
  rw [foldl_deserialize_plain q [] hcond hnd (by simp)]
  simp

/-- Witness for the amended C6 theorem at
`{sort: "asc", archived: true}`. -/
theorem query_roundtrip_plain_witness :
    ([("sort".toList, QVal.str "asc".toList), ("archived".toList, QVal.tru)] ≠
        ([] : QueryMap)) ∧
    deserializeQueryString
        (serializeQuery
          [("sort".toList, QVal.str "asc".toList),
           ("archived".toList, QVal.tru)]) =
      [("sort".toList, QVal.str "asc".toList),
       ("archived".toList, QVal.str "true".toList)] :=
  ⟨by decide,
   query_roundtrip_plain
     [("sort".toList, QVal.str "asc".toList), ("archived".toList, QVal.tru)]
     (by decide) (by decide) (by decide)⟩

/-! ## C1: the recognize/generate round trip

The claim quantifies over registered routes; the formalization quantifies
over a route template given as a list of tokens (static text or `:name`)
together with a parameter valuation. -/

/-- One `/`-delimited token of a route template: static text or a
dynamic `:name`. -/
inductive Tok where
  | stat (t : Str)
  | dyn (n : Str)

/-- The token's text inside the template. -/
def tokText : Tok → Str
  | .stat t => t
  | .dyn n => ':' :: n

/-- The segment the parser produces for the token. -/
def tokSeg : Tok → Segment
  | .stat t => .static t
  | .dyn n => .dynamic n

/-- The token's rendering in a generated path under a valuation. -/
def tokVal (vals : Str → Str) : Tok → Str
  | .stat t => t
  | .dyn n => vals n

/-- Well-formedness of a token for the round trip: static text is
nonempty, `/`-free, does not begin with `:` or `*`, and contains neither
`^` nor `$` (the escape list omits these, so they would act as regex
anchors rather than literals); a dynamic name is nonempty and `/`-free
and its value is nonempty and free of `/` and `;`. -/
def tokOk (vals : Str → Str) : Tok → Bool
  | .stat t =>
    !t.isEmpty && t.all (· ≠ '/') && t.head? != some ':' &&
      t.head? != some '*' && t.all (fun c => c ≠ '^' && c ≠ '$')
  | .dyn n =>
    !n.isEmpty && n.all (· ≠ '/') &&
      !(vals n).isEmpty && (vals n).all (fun c => c ≠ '/' && c ≠ ';')

/-- The template path the route is registered under. -/
def templatePath (toks : List Tok) : Str :=
  '/' :: joinSep '/' (toks.map tokText)

/-- The path `generate` produces for the route under the valuation. -/
def genPath (vals : Str → Str) (toks : List Tok) : Str :=
  '/' :: joinSep '/' (toks.map (tokVal vals))

/-- The dynamic parameter names of the template, in order. -/
def dynNames (toks : List Tok) : List Str :=
  toks.filterMap fun tk =>
    match tk with
    | .dyn n => some n
    | .stat _ => none

/-- The params mapping `P` supplied to `generate`. -/
def paramsOf (vals : Str → Str) (toks : List Tok) : List (Str × Str) :=
  (dynNames toks).map (fun n => (n, vals n))

/-- A recognizer holding exactly the one route, registered under
`rname`. -/
def tblOf (toks : List Tok) (hname rname : Str) : RouteRecognizer :=
  addRoutes emptyRecognizer [⟨templatePath toks, hname⟩] (some rname)

/-- **C1** (counterexample): the round trip fails as universally stated.
On the non-ambiguous, star-free table `{"/posts/:id" as "post"}` with
`P = {id: "a/b"}`, `generate` happily renders `"/posts/a/b"`, but
recognizing that path fails (the value straddles two path segments), so
no handler chain with params `P` is produced. -/
theorem roundtrip_fails_on_slash_value :
    generate tblPost "post".toList [("id".toList, "a/b".toList)] [] =
      .ok "/posts/a/b".toList ∧
    recognize tblPost "/posts/a/b".toList = none := by
  exact ⟨rfl, by decide⟩

theorem filterMap_all_some {f : α → Option β} {g : α → β} :
    ∀ {l : List α}, (∀ a ∈ l, f a = some (g a)) → l.filterMap f = l.map g := by
  intro l
  induction l with
  | nil => intro _; rfl
  | cons x xs ih =>
    intro h
    rw [List.filterMap_cons, h x (List.mem_cons_self ..),
      ih (fun a ha => h a (List.mem_cons_of_mem _ ha)), List.map_cons]

theorem tokText_no_slash {vals : Str → Str} {tk : Tok}
    (h : tokOk vals tk = true) : '/' ∉ tokText tk := by
  cases tk with
  | stat t =>
    simp only [tokOk, Bool.and_eq_true, List.all_eq_true] at h
    intro hm
    have := h.1.1.1.2 _ hm
    simp at this
  | dyn n =>
    simp only [tokOk, Bool.and_eq_true, List.all_eq_true] at h
    intro hm
    rcases List.mem_cons.1 hm with h' | h'
    · exact absurd h' (by decide)
    · have := h.1.1.2 _ h'
      simp at this

theorem tokVal_no_slash {vals : Str → Str} {tk : Tok}
    (h : tokOk vals tk = true) : '/' ∉ tokVal vals tk := by
  cases tk with
  | stat t =>
    simp only [tokOk, Bool.and_eq_true, List.all_eq_true] at h
    intro hm
    have := h.1.1.1.2 _ hm
    simp at this
  | dyn n =>
    simp only [tokOk, Bool.and_eq_true, List.all_eq_true] at h
    intro hm
    have := h.2 _ hm
    simp at this

theorem tokVal_ne_nil {vals : Str → Str} {tk : Tok}
    (h : tokOk vals tk = true) : tokVal vals tk ≠ [] := by
  cases tk with
  | stat t =>
    simp only [tokOk, Bool.and_eq_true] at h
    simpa [tokVal] using h.1.1.1.1
  | dyn n =>
    simp only [tokOk, Bool.and_eq_true] at h
    simpa [tokVal] using h.1.2

theorem classify_tokText {vals : Str → Str} {tk : Tok}
    (h : tokOk vals tk = true) : classify (tokText tk) = some (tokSeg tk) := by
  cases tk with
  | stat t =>
    simp only [tokOk, Bool.and_eq_true, bne_iff_ne] at h
    obtain ⟨⟨⟨⟨hne, _⟩, hcolon⟩, hstar⟩, _⟩ := h
    cases t with
    | nil => simp at hne
    | cons c rest =>
      have hc : ¬ c = ':' := fun he => hcolon (by rw [he]; rfl)
      have hs : ¬ c = '*' := fun he => hstar (by rw [he]; rfl)
      simp [tokText, classify, tokSeg, hc, hs]
  | dyn n =>
    simp only [tokOk, Bool.and_eq_true] at h
    have hne : ¬ n.isEmpty = true := by simpa using h.1.1.1
    simp [tokText, classify, tokSeg, List.isEmpty_iff] at hne ⊢
    intro he
    exact absurd he hne

theorem parse_templatePath {vals : Str → Str} {toks : List Tok}
    (hne : toks ≠ []) (hok : ∀ tk ∈ toks, tokOk vals tk = true) :
    parse (templatePath toks) = toks.map tokSeg := by
  have hstrip : parse (templatePath toks) =
      (splitChar '/' (joinSep '/' (toks.map tokText))).filterMap classify := rfl
  rw [hstrip, splitChar_joinSep (by simpa using hne)
    (by
      intro p hp
      obtain ⟨tk, htk, hrfl⟩ := List.mem_map.1 hp
      rw [← hrfl]
      exact tokText_no_slash (hok tk htk)),
    List.filterMap_map]
  exact filterMap_all_some (fun tk htk => classify_tokText (hok tk htk))

theorem markLast_fst (h : Str) : ∀ l : List Segment, (markLast h l).map Prod.fst = l := by
  intro l
  induction l with
  | nil => rfl
  | cons s rest ih =>
    cases rest with
    | nil => rfl
    | cons s2 r2 =>
      have hstep : markLast h (s :: s2 :: r2) = (s, none) :: markLast h (s2 :: r2) := rfl
      rw [hstep, List.map_cons, ih]

theorem markLast_ne_nil (h : Str) {l : List Segment} (hl : l ≠ []) :
    markLast h l ≠ [] := by
  cases l with
  | nil => exact absurd rfl hl
  | cons s rest => cases rest <;> simp [markLast]

theorem segNames_tokSeg : ∀ toks : List Tok,
    segNames (toks.map tokSeg) = dynNames toks := by
  intro toks
  induction toks with
  | nil => rfl
  | cons tk rest ih =>
    cases tk with
    | stat t =>
      show segNames (.static t :: rest.map tokSeg) = dynNames (.stat t :: rest)
      rw [segNames, List.filterMap_cons]
      rw [segNames] at ih
      simpa [dynNames, List.filterMap_cons] using ih
    | dyn n =>
      show segNames (.dynamic n :: rest.map tokSeg) = dynNames (.dyn n :: rest)
      rw [segNames, List.filterMap_cons]
      rw [segNames] at ih
      simpa [dynNames, List.filterMap_cons] using ih

/-- The chain of states that descending a fresh trie along `ks` builds. -/
def chainState (k0 : SegKey) : List SegKey → Terminal → State
  | [], term => .node k0 [] (some term)
  | k :: rest, term => .node k0 [chainState k rest term] none

theorem insertPath_empty_root (k0 : SegKey) :
    ∀ (ks : List SegKey) (term : Terminal),
      insertPath (.node k0 [] none) ks term = chainState k0 ks term := by
  intro ks
  induction ks generalizing k0 with
  | nil => intro term; rfl
  | cons k rest ih =>
    intro term
    show State.node k0 (replaceOrAppend k
      (insertPath (.node k [] none) rest term) []) none = _
    rw [replaceOrAppend, ih k term]
    rfl

/-- The marked segment sequence of the single-route registration. -/
def segsQOf (toks : List Tok) (hname : Str) : List (Segment × Option Str) :=
  markLast hname (toks.map tokSeg)

theorem addAllSegments_single {vals : Str → Str} {toks : List Tok}
    (hne : toks ≠ []) (hok : ∀ tk ∈ toks, tokOk vals tk = true)
    (hname : Str) :
    addAllSegments [⟨templatePath toks, hname⟩] = segsQOf toks hname := by
  show ((addLevels [⟨templatePath toks, hname⟩]).map Prod.fst).flatten = _
  rw [addLevels]
  simp only [List.map_cons, List.map_nil, List.flatten_cons, List.flatten_nil,
    List.append_nil]
  rw [parse_templatePath hne hok]
  rfl

theorem segsQOf_ne_nil {toks : List Tok} (hne : toks ≠ []) (hname : Str) :
    segsQOf toks hname ≠ [] :=
  markLast_ne_nil hname (by simpa using hne)

/-- The handler chain of the single-route registration. -/
theorem addHandlers_single {vals : Str → Str} {toks : List Tok}
    (hne : toks ≠ []) (hok : ∀ tk ∈ toks, tokOk vals tk = true)
    (hname : Str) :
    addHandlers [⟨templatePath toks, hname⟩] =
      [⟨hname, dynNames toks, false⟩] := by
  rw [addHandlers, addLevels]
  simp only [List.map_cons, List.map_nil]
  rw [parse_templatePath hne hok]
  show [Handler.mk hname (segNames ((markLast hname (toks.map tokSeg)).map Prod.fst)) false] = _
  rw [markLast_fst, segNames_tokSeg]

theorem tblOf_rootState {vals : Str → Str} {toks : List Tok}
    (hne : toks ≠ []) (hok : ∀ tk ∈ toks, tokOk vals tk = true)
    (hname rname : Str) :
    (tblOf toks hname rname).rootState =
      chainState .kEmpty ((segsQOf toks hname).map keyOf)
        (addTerminal [⟨templatePath toks, hname⟩]) := by
  show insertPath (.node .kEmpty [] none) (addKeys [⟨templatePath toks, hname⟩]) _ = _
  rw [addKeys, addAllSegments_single hne hok hname,
    if_neg (by simpa [List.isEmpty_iff] using segsQOf_ne_nil hne hname)]
  exact insertPath_empty_root _ _ _

theorem tblOf_frags {vals : Str → Str} {toks : List Tok}
    (hne : toks ≠ []) (hok : ∀ tk ∈ toks, tokOk vals tk = true)
    (hname : Str) :
    addFrags [⟨templatePath toks, hname⟩] = (segsQOf toks hname).map fragOf := by
  rw [addFrags, addAllSegments_single hne hok hname,
    if_neg (by simpa [List.isEmpty_iff] using segsQOf_ne_nil hne hname)]

theorem tblOf_names {vals : Str → Str} {toks : List Tok}
    (hne : toks ≠ []) (hok : ∀ tk ∈ toks, tokOk vals tk = true)
    (hname rname : Str) :
    objGet rname (tblOf toks hname rname).names =
      some ⟨segsQOf toks hname, [⟨hname, dynNames toks, false⟩]⟩ := by
  show objGet rname (objInsert rname _ []) = _
  rw [objInsert, objGet, if_pos rfl, addStoredSegments,
    addAllSegments_single hne hok hname,
    if_neg (by simpa [List.isEmpty_iff] using segsQOf_ne_nil hne hname),
    addHandlers_single hne hok hname]

theorem generateStep_no_queries (params : List (Str × Str)) (out : Str)
    (sq : Segment × Option Str) :
    generateStep params [] out sq = out ++ '/' :: segGenerate params sq.1 := by
  rw [generateStep]
  cases hq : sq.2 with
  | none => simp [qmark]
  | some owner =>
    by_cases ho : qmark (some owner) = true
    · simp only [if_pos ho]
      rfl
    · simp only [Bool.not_eq_true] at ho
      simp only [ho, Bool.false_eq_true, if_false]

theorem foldl_generateStep_no_queries (params : List (Str × Str)) :
    ∀ (sqs : List (Segment × Option Str)) (acc : Str),
      sqs.foldl (generateStep params []) acc =
        acc ++ (sqs.map (fun sq => '/' :: segGenerate params sq.1)).flatten := by
  intro sqs
  induction sqs with
  | nil => intro acc; simp
  | cons sq rest ih =>
    intro acc
    rw [List.foldl_cons, generateStep_no_queries, ih, List.map_cons,
      List.flatten_cons, List.append_assoc]

theorem objGet_map_self (f : Str → α) :
    ∀ (l : List Str) (n : Str), n ∈ l →
      objGet n (l.map (fun m => (m, f m))) = some (f n) := by
  intro l
  induction l with
  | nil => intro n hn; simp at hn
  | cons m rest ih =>
    intro n hn
    by_cases hm : m = n
    · rw [List.map_cons, objGet, if_pos hm, hm]
    · rw [List.map_cons, objGet, if_neg hm]
      rcases List.mem_cons.1 hn with h' | h'
      · exact absurd h'.symm hm
      · exact ih n h'

theorem mem_dynNames {toks : List Tok} {n : Str} (h : Tok.dyn n ∈ toks) :
    n ∈ dynNames toks :=
  List.mem_filterMap.2 ⟨.dyn n, h, rfl⟩

theorem segGenerate_tokVal {vals : Str → Str} {toks : List Tok} {tk : Tok}
    (htk : tk ∈ toks) :
    segGenerate (paramsOf vals toks) (tokSeg tk) = tokVal vals tk := by
  cases tk with
  | stat t => rfl
  | dyn n =>
    show (objGet n (paramsOf vals toks)).getD "undefined".toList = vals n
    rw [paramsOf, objGet_map_self vals (dynNames toks) n (mem_dynNames htk)]
    rfl

theorem flatten_slash_pieces :
    ∀ ps : List Str, ps ≠ [] →
      (ps.map (fun p => '/' :: p)).flatten = '/' :: joinSep '/' ps := by
  intro ps
  induction ps with
  | nil => intro h; exact absurd rfl h
  | cons p rest ih =>
    intro _
    cases rest with
    | nil => simp [joinSep]
    | cons p2 r2 =>
      rw [List.map_cons, List.flatten_cons, ih (by simp)]
      show '/' :: (p ++ '/' :: joinSep '/' (p2 :: r2)) = _
      rfl

theorem generate_single {vals : Str → Str} {toks : List Tok}
    (hne : toks ≠ []) (hok : ∀ tk ∈ toks, tokOk vals tk = true)
    (hname rname : Str) :
    generate (tblOf toks hname rname) rname (paramsOf vals toks) [] =
      .ok (genPath vals toks) := by
  rw [generate, tblOf_names hne hok hname rname]
  have hfold : (segsQOf toks hname).foldl
      (generateStep (paramsOf vals toks) []) [] = genPath vals toks := by
    rw [foldl_generateStep_no_queries, List.nil_append]
    have hmap : (segsQOf toks hname).map
        (fun sq => '/' :: segGenerate (paramsOf vals toks) sq.1) =
          toks.map (fun tk => '/' :: tokVal vals tk) := by
      have h1 : (segsQOf toks hname).map
          (fun sq => '/' :: segGenerate (paramsOf vals toks) sq.1) =
            ((segsQOf toks hname).map Prod.fst).map
              (fun seg => '/' :: segGenerate (paramsOf vals toks) seg) := by
        rw [List.map_map]
        rfl
      rw [h1, segsQOf, markLast_fst, List.map_map]
      refine List.map_congr_left ?_
      intro tk htk
      show '/' :: segGenerate (paramsOf vals toks) (tokSeg tk) = _
      rw [segGenerate_tokVal htk]
    rw [hmap]
    have h2 : toks.map (fun tk => '/' :: tokVal vals tk) =
        (toks.map (tokVal vals)).map (fun p => '/' :: p) := by
      rw [List.map_map]; rfl
    rw [h2, flatten_slash_pieces _ (by simpa using hne)]
    rfl
  simp only [hfold]
  rw [genPath]
  simp

theorem normalizePath_of_good {p : Str} (hhead : p.head? = some '/')
    (hlast : ∀ ch, p.getLast? = some ch → ch ≠ '/') :
    normalizePath p = p := by
  have hpne : p ≠ [] := by
    intro he
    rw [he] at hhead
    simp at hhead
  obtain ⟨ch, hch⟩ : ∃ ch, p.getLast? = some ch := by
    cases hg : p.getLast? with
    | none => exact absurd (List.getLast?_eq_none_iff.1 hg) hpne
    | some c => exact ⟨c, rfl⟩
  have hgd : p.getD (p.length - 1) ' ' = ch := by
    rw [List.getD_eq_getElem?_getD, ← List.getLast?_eq_getElem?, hch]
    rfl
  have hbeq : (p.getD (p.length - 1) ' ' == '/') = false := by
    rw [hgd]
    exact beq_eq_false_iff_ne.2 (hlast ch hch)
  rw [normalizePath]
  simp only [hhead, if_true, hbeq, Bool.and_false, Bool.false_eq_true,
    if_false]

theorem genPath_head {vals : Str → Str} (toks : List Tok) :
    (genPath vals toks).head? = some '/' := rfl

theorem getLast?_slash_join :
    ∀ ps : List Str, ps ≠ [] → (∀ p ∈ ps, p ≠ [] ∧ '/' ∉ p) →
      ∀ ch, ('/' :: joinSep '/' ps).getLast? = some ch → ch ≠ '/' := by
  intro ps
  induction ps with
  | nil => intro h; exact absurd rfl h
  | cons p rest ih =>
    intro _ hp ch hch
    cases rest with
    | nil =>
      have hpp := hp p (List.mem_cons_self ..)
      have : ('/' :: joinSep '/' [p]).getLast? = p.getLast? := by
        show (['/'] ++ p).getLast? = p.getLast?
        exact List.getLast?_append_of_ne_nil _ hpp.1
      rw [this] at hch
      have hmem : ch ∈ p := by
        have := List.getLast?_eq_getLast_of_ne_nil hpp.1
        rw [this] at hch
        exact (Option.some_inj.1 hch) ▸ List.getLast_mem hpp.1
      exact fun he => hpp.2 (he ▸ hmem)
    | cons p2 r2 =>
      have hsplit : '/' :: joinSep '/' (p :: p2 :: r2) =
          ('/' :: p) ++ ('/' :: joinSep '/' (p2 :: r2)) := by
        show '/' :: (p ++ '/' :: joinSep '/' (p2 :: r2)) = _
        simp
      rw [hsplit, List.getLast?_append_of_ne_nil _ (by simp)] at hch
      exact ih (by simp) (fun q hq => hp q (List.mem_cons_of_mem _ hq)) ch hch

theorem normalizePath_genPath {vals : Str → Str} {toks : List Tok}
    (hne : toks ≠ []) (hok : ∀ tk ∈ toks, tokOk vals tk = true) :
    normalizePath (genPath vals toks) = genPath vals toks := by
  refine normalizePath_of_good (genPath_head toks) ?_
  rw [genPath]
  exact getLast?_slash_join _ (by simpa using hne)
    (by
      intro p hp
      obtain ⟨tk, htk, hrfl⟩ := List.mem_map.1 hp
      rw [← hrfl]
      exact ⟨tokVal_ne_nil (hok tk htk), tokVal_no_slash (hok tk htk)⟩)

theorem splitAtFirst_eq_none {c : Char} :
    ∀ {s : Str}, c ∉ s → splitAtFirst c s = none := by
  intro s
  induction s with
  | nil => intro _; rfl
  | cons x xs ih =>
    intro h
    have hx : ¬ x = c := fun he => h (he ▸ List.mem_cons_self ..)
    have hxs : c ∉ xs := fun hm => h (List.mem_cons_of_mem _ hm)
    rw [splitAtFirst, if_neg hx, ih hxs]
    rfl

theorem all_pair_split {v : Str}
    (h : v.all (fun c => c ≠ '/' && c ≠ ';') = true) :
    v.all (· ≠ '/') = true ∧ ';' ∉ v := by
  rw [List.all_eq_true] at h
  constructor
  · rw [List.all_eq_true]
    intro c hc
    have := h c hc
    simp only [Bool.and_eq_true, decide_eq_true_eq] at this
    simpa using this.1
  · intro hm
    have := h _ hm
    simp at this

theorem tokOk_stat_plain {vals : Str → Str} {t : Str}
    (h : tokOk vals (.stat t) = true) : ∀ c ∈ t, c ≠ '^' ∧ c ≠ '$' := by
  simp only [tokOk, Bool.and_eq_true, List.all_eq_true] at h
  intro c hc
  have := h.2 c hc
  simpa using this

/-- On anchor-free static text, `matchStatic` consumes exactly the text
literally. -/
theorem matchStatic_plain {t : Str} (hp : ∀ c ∈ t, c ≠ '^' ∧ c ≠ '$') :
    ∀ (b : Bool) (rest : Str), ∃ b2, matchStatic b t (t ++ rest) = some (b2, rest) := by
  induction t with
  | nil => exact fun b rest => ⟨b, rfl⟩
  | cons c t ih =>
    intro b rest
    have hc := hp c (List.mem_cons_self ..)
    obtain ⟨b2, hb2⟩ := ih (fun x hx => hp x (List.mem_cons_of_mem _ hx)) false rest
    refine ⟨b2, ?_⟩
    rw [List.cons_append, matchStatic, if_neg hc.1, if_neg hc.2]
    simp only [if_pos rfl]
    exact hb2

/-- On anchor-free static text, `matchStaticPath` consumes exactly the
text literally. -/
theorem matchStaticPath_plain {t : Str} (hp : ∀ c ∈ t, c ≠ '^' ∧ c ≠ '$') :
    ∀ rest : Str, matchStaticPath t (t ++ rest) = some rest := by
  induction t with
  | nil => exact fun rest => rfl
  | cons c t ih =>
    intro rest
    have hc := hp c (List.mem_cons_self ..)
    rw [List.cons_append, matchStaticPath, if_neg hc.1, if_neg hc.2]
    simp only [if_pos rfl]
    exact ih (fun x hx => hp x (List.mem_cons_of_mem _ hx)) rest

/-- A well-formed token's generated value matches the trie key of its
marked segment, whatever the query marker. -/
theorem segMatches_tok {vals : Str → Str} {tk : Tok}
    (h : tokOk vals tk = true) (q : Option Str) :
    segMatches (keyOf (tokSeg tk, q)) (tokVal vals tk) = true := by
  cases tk with
  | stat t =>
    obtain ⟨b2, hb2⟩ := matchStatic_plain (tokOk_stat_plain h) true []
    rw [List.append_nil] at hb2
    cases hq : qmark q with
    | false => simp [keyOf, tokSeg, hq, segMatches, tokVal, hb2]
    | true => simp [keyOf, tokSeg, hq, segMatches, tokVal, hb2]
  | dyn n =>
    simp only [tokOk, Bool.and_eq_true] at h
    obtain ⟨⟨⟨_, _⟩, hvne⟩, hvall⟩ := h
    obtain ⟨hslash, hsemi⟩ := all_pair_split hvall
    cases hq : qmark q with
    | false =>
      simp only [keyOf, tokSeg, hq, segMatches, tokVal, Bool.and_eq_true]
      exact ⟨by simpa using hvne, hslash⟩
    | true =>
      simp only [keyOf, tokSeg, hq, segMatches, tokVal]
      rw [splitAtFirst_eq_none hsemi]
      simp only [Bool.and_eq_true]
      exact ⟨by simpa using hvne, hslash⟩

/-- Walking the generated path's segments down the single-route chain
reaches exactly the terminal node. -/
theorem walk_chain {vals : Str → Str} (hname : Str) :
    ∀ (toks : List Tok) (k0 : SegKey) (term : Terminal), toks ≠ [] →
      (∀ tk ∈ toks, tokOk vals tk = true) →
      ∃ kl, walkStates [chainState k0 ((segsQOf toks hname).map keyOf) term]
          (toks.map (tokVal vals)) = [State.node kl [] (some term)] := by
  intro toks
  induction toks with
  | nil => intro k0 term h; exact absurd rfl h
  | cons tk tks ih =>
    intro k0 term _ hok
    cases tks with
    | nil =>
      refine ⟨keyOf (tokSeg tk, some hname), ?_⟩
      show walkStates [State.node k0
        [State.node (keyOf (tokSeg tk, some hname)) [] (some term)] none]
        [tokVal vals tk] = _
      rw [walkStates]
      have hmatch : recognizeSegment
          [State.node k0 [State.node (keyOf (tokSeg tk, some hname)) [] (some term)] none]
          (tokVal vals tk) =
            [State.node (keyOf (tokSeg tk, some hname)) [] (some term)] := by
        rw [recognizeSegment]
        simp only [List.map_cons, List.map_nil, List.flatten_cons,
          List.flatten_nil, List.append_nil, State.children]
        rw [List.filter_cons]
        simp only [State.key]
        rw [if_pos (segMatches_tok (hok tk (List.mem_cons_self ..)) (some hname))]
        rfl
      rw [hmatch]
      simp only [List.isEmpty_cons, Bool.false_eq_true, if_false]
      rfl
    | cons tk2 r2 =>
      have hsegsQ : segsQOf (tk :: tk2 :: r2) hname =
          (tokSeg tk, none) :: segsQOf (tk2 :: r2) hname := rfl
      obtain ⟨kl, hkl⟩ := ih (keyOf (tokSeg tk, none)) term (by simp)
        (fun x hx => hok x (List.mem_cons_of_mem _ hx))
      refine ⟨kl, ?_⟩
      rw [hsegsQ]
      show walkStates [State.node k0
        [chainState (keyOf (tokSeg tk, none)) ((segsQOf (tk2 :: r2) hname).map keyOf) term]
        none] (tokVal vals tk :: (tk2 :: r2).map (tokVal vals)) = _
      rw [walkStates]
      have hmatch : recognizeSegment
          [State.node k0
            [chainState (keyOf (tokSeg tk, none)) ((segsQOf (tk2 :: r2) hname).map keyOf) term]
            none] (tokVal vals tk) =
          [chainState (keyOf (tokSeg tk, none)) ((segsQOf (tk2 :: r2) hname).map keyOf) term] := by
        rw [recognizeSegment]
        simp only [List.map_cons, List.map_nil, List.flatten_cons,
          List.flatten_nil, List.append_nil, State.children]
        have hkey : (chainState (keyOf (tokSeg tk, none))
            ((segsQOf (tk2 :: r2) hname).map keyOf) term).key =
              keyOf (tokSeg tk, none) := by
          cases hc : (segsQOf (tk2 :: r2) hname).map keyOf <;> rfl
        rw [List.filter_cons, hkey,
          if_pos (segMatches_tok (hok tk (List.mem_cons_self ..)) none)]
        rfl
      rw [hmatch]
      simp only [List.isEmpty_cons, Bool.false_eq_true, if_false]
      exact hkl

theorem countWhile_all {p : Char → Bool} :
    ∀ {v : Str}, (∀ c ∈ v, p c = true) → countWhile p v = v.length := by
  intro v
  induction v with
  | nil => intro _; rfl
  | cons c cs ih =>
    intro h
    rw [countWhile, if_pos (h c (List.mem_cons_self ..)),
      ih (fun x hx => h x (List.mem_cons_of_mem _ hx)), List.length_cons]

theorem countWhile_append_stop {p : Char → Bool} {d : Char} (hd : p d = false) :
    ∀ {v u : Str}, (∀ c ∈ v, p c = true) →
      countWhile p (v ++ d :: u) = v.length := by
  intro v
  induction v with
  | nil =>
    intro u _
    rw [List.nil_append, countWhile, hd]
    rfl
  | cons c cs ih =>
    intro u h
    rw [List.cons_append, countWhile, if_pos (h c (List.mem_cons_self ..)),
      ih (fun x hx => h x (List.mem_cons_of_mem _ hx)), List.length_cons]

theorem descFrom_succ (n : Nat) : descFrom (n + 1) = (n + 1) :: descFrom n := by
  rw [descFrom, List.range_succ_eq_map, List.map_cons, Nat.sub_zero,
    List.map_map, descFrom]
  congr 1
  refine List.map_congr_left ?_
  intro i _
  simp only [Function.comp_apply, Nat.succ_eq_add_one]
  omega

theorem firstSome_cons_some {f : α → Option β} {x : α} {xs : List α} {b : β}
    (h : f x = some b) : firstSome f (x :: xs) = some b := by
  rw [firstSome, h]

theorem qmark_some {h : Str} (hh : h ≠ []) : qmark (some h) = true := by
  simp [qmark, List.isEmpty_iff, hh]

/-- The generated path as the concatenation of `'/' + piece` blocks. -/
def piecesPath (ps : List Str) : Str := (ps.map (fun p => '/' :: p)).flatten

theorem piecesPath_cons (p : Str) (ps : List Str) :
    piecesPath (p :: ps) = '/' :: (p ++ piecesPath ps) := rfl

theorem genPath_eq_piecesPath {vals : Str → Str} {toks : List Tok}
    (hne : toks ≠ []) :
    genPath vals toks = piecesPath (toks.map (tokVal vals)) := by
  rw [genPath, piecesPath, flatten_slash_pieces _ (by simpa using hne)]

theorem matchFrags_static (t : Str) (hp : ∀ c ∈ t, c ≠ '^' ∧ c ≠ '$')
    (q : Bool) (fs : List Frag) (rest : Str) :
    matchFrags (.fStatic t q :: fs) ('/' :: (t ++ rest)) =
      if q then matchQueryTail (matchFrags fs) rest else matchFrags fs rest := by
  show (if ('/' : Char) = '/' then
      match matchStaticPath t (t ++ rest) with
      | some r2 =>
        if q then matchQueryTail (matchFrags fs) r2 else matchFrags fs r2
      | none => none
    else none) = _
  rw [if_pos rfl, matchStaticPath_plain hp rest]

theorem matchQueryTail_nil (fs : List Frag) :
    matchQueryTail (matchFrags fs) [] =
      (matchFrags fs []).map (fun caps => none :: caps) := rfl

theorem matchFrags_static_last (t : Str) (hp : ∀ c ∈ t, c ≠ '^' ∧ c ≠ '$') :
    matchFrags [.fStatic t true] ('/' :: t) = some [none] := by
  have h := matchFrags_static t hp true [] []
  rw [List.append_nil] at h
  rw [h, if_pos rfl, matchQueryTail_nil]
  rfl

theorem matchFrags_dyn_last {v : Str} (hvne : v ≠ [])
    (hv : v.all (fun c => c ≠ '/' && c ≠ ';') = true) :
    matchFrags [.fDynamic true] ('/' :: v) = some [some v, none] := by
  have hcw : countWhile (fun c => c ≠ '/' && c ≠ ';') v = v.length :=
    countWhile_all (by
      intro c hc
      have := (List.all_eq_true.1 hv) c hc
      simpa using this)
  obtain ⟨n, hn⟩ : ∃ n, v.length = n + 1 := by
    cases v with
    | nil => exact absurd rfl hvne
    | cons c cs => exact ⟨cs.length, rfl⟩
  show (if ('/' : Char) = '/' then
      firstSome
        (fun k =>
          (matchQueryTail (matchFrags []) (v.drop k)).map
            (fun caps => some (v.take k) :: caps))
        (descFrom (countWhile (fun c => c ≠ '/' && c ≠ ';') v))
    else none) = _
  rw [if_pos rfl, hcw, hn, descFrom_succ]
  refine firstSome_cons_some ?_
  rw [← hn, List.drop_length, List.take_length, matchQueryTail_nil]
  rfl

theorem matchFrags_dyn_cons {v : Str} (hvne : v ≠ [])
    (hs : v.all (· ≠ '/') = true) {fs : List Frag} {tail : Str} {caps : Caps}
    (hrec : matchFrags fs ('/' :: tail) = some caps) :
    matchFrags (.fDynamic false :: fs) ('/' :: (v ++ '/' :: tail)) =
      some (some v :: caps) := by
  have hcw : countWhile (fun c => c ≠ '/') (v ++ '/' :: tail) = v.length :=
    countWhile_append_stop (by simp) (by
      intro c hc
      have := (List.all_eq_true.1 hs) c hc
      simpa using this)
  obtain ⟨n, hn⟩ : ∃ n, v.length = n + 1 := by
    cases v with
    | nil => exact absurd rfl hvne
    | cons c cs => exact ⟨cs.length, rfl⟩
  show (if ('/' : Char) = '/' then
      firstSome
        (fun k =>
          (matchFrags fs ((v ++ '/' :: tail).drop k)).map
            (fun caps => some ((v ++ '/' :: tail).take k) :: caps))
        (descFrom (countWhile (fun c => c ≠ '/') (v ++ '/' :: tail)))
    else none) = _
  rw [if_pos rfl, hcw, hn, descFrom_succ]
  refine firstSome_cons_some ?_
  rw [← hn, List.drop_left, List.take_left, hrec]
  rfl

/-- The capture list the combined regex produces on the generated path:
one main capture per dynamic segment, in order, and one unmatched query
capture contributed by the last segment. -/
def capsOf (vals : Str → Str) : List Tok → Caps
  | [] => []
  | [tk] =>
    match tk with
    | .stat _ => [none]
    | .dyn n => [some (vals n), none]
  | tk :: rest =>
    (match tk with
     | .stat _ => []
     | .dyn n => [some (vals n)]) ++ capsOf vals rest

theorem matchFrags_chain {vals : Str → Str} {hname : Str} (hh : hname ≠ []) :
    ∀ toks, toks ≠ [] → (∀ tk ∈ toks, tokOk vals tk = true) →
      matchFrags ((segsQOf toks hname).map fragOf)
        (piecesPath (toks.map (tokVal vals))) = some (capsOf vals toks) := by
  intro toks
  induction toks with
  | nil => intro h; exact absurd rfl h
  | cons tk tks ih =>
    intro _ hok
    have hoktk := hok tk (List.mem_cons_self ..)
    cases tks with
    | nil =>
      have hpp : piecesPath ([tk].map (tokVal vals)) = '/' :: tokVal vals tk := by
        rw [List.map_cons, List.map_nil, piecesPath_cons]
        show '/' :: (tokVal vals tk ++ piecesPath []) = _
        rw [show piecesPath [] = [] from rfl, List.append_nil]
      rw [hpp]
      cases tk with
      | stat t =>
        show matchFrags [fragOf (.static t, some hname)] ('/' :: t) = some [none]
        rw [show fragOf (Segment.static t, some hname) =
          .fStatic t (qmark (some hname)) from rfl, qmark_some hh]
        exact matchFrags_static_last t (tokOk_stat_plain hoktk)
      | dyn n =>
        show matchFrags [fragOf (.dynamic n, some hname)] ('/' :: vals n) =
          some [some (vals n), none]
        rw [show fragOf (Segment.dynamic n, some hname) =
          .fDynamic (qmark (some hname)) from rfl, qmark_some hh]
        simp only [tokOk, Bool.and_eq_true] at hoktk
        exact matchFrags_dyn_last (by simpa using hoktk.1.2) hoktk.2
    | cons tk2 r2 =>
      have hrec := ih (by simp) (fun x hx => hok x (List.mem_cons_of_mem _ hx))
      have hsegsQ : segsQOf (tk :: tk2 :: r2) hname =
          (tokSeg tk, none) :: segsQOf (tk2 :: r2) hname := rfl
      have htail : piecesPath ((tk :: tk2 :: r2).map (tokVal vals)) =
          '/' :: (tokVal vals tk ++ piecesPath ((tk2 :: r2).map (tokVal vals))) := by
        rw [List.map_cons, piecesPath_cons]
      have htail2 : piecesPath ((tk2 :: r2).map (tokVal vals)) =
          '/' :: (tokVal vals tk2 ++ piecesPath (r2.map (tokVal vals))) := by
        rw [List.map_cons, piecesPath_cons]
      rw [hsegsQ, List.map_cons, htail]
      cases tk with
      | stat t =>
        show matchFrags (.fStatic t (qmark none) :: (segsQOf (tk2 :: r2) hname).map fragOf)
          ('/' :: (t ++ piecesPath ((tk2 :: r2).map (tokVal vals)))) = _
        rw [show qmark none = false from rfl,
          matchFrags_static t (tokOk_stat_plain hoktk), if_neg (by simp), hrec]
        rfl
      | dyn n =>
        show matchFrags (.fDynamic (qmark none) :: (segsQOf (tk2 :: r2) hname).map fragOf)
          ('/' :: (vals n ++ piecesPath ((tk2 :: r2).map (tokVal vals)))) = _
        rw [show qmark none = false from rfl]
        simp only [tokOk, Bool.and_eq_true] at hoktk
        rw [htail2] at hrec ⊢
        rw [matchFrags_dyn_cons (by simpa using hoktk.1.2)
          (all_pair_split hoktk.2).1 hrec]
        rfl

theorem capsOf_eq (vals : Str → Str) :
    ∀ toks : List Tok, toks ≠ [] →
      capsOf vals toks =
        (dynNames toks).map (fun n => some (vals n)) ++ [none] := by
  intro toks
  induction toks with
  | nil => intro h; exact absurd rfl h
  | cons tk tks ih =>
    intro _
    cases tks with
    | nil =>
      cases tk with
      | stat t => rfl
      | dyn n => rfl
    | cons tk2 r2 =>
      cases tk with
      | stat t =>
        have hstep : capsOf vals (.stat t :: tk2 :: r2) =
            capsOf vals (tk2 :: r2) := rfl
        rw [hstep, ih (by simp)]
        rfl
      | dyn n =>
        have hstep : capsOf vals (.dyn n :: tk2 :: r2) =
            some (vals n) :: capsOf vals (tk2 :: r2) := rfl
        rw [hstep, ih (by simp)]
        rw [show dynNames (.dyn n :: tk2 :: r2) = n :: dynNames (tk2 :: r2) from rfl,
          List.map_cons]
        simp

theorem range_map_getD (g : α → β) (d : α) :
    ∀ l : List α,
      (List.range l.length).map (fun j => g (l.getD j d)) = l.map g := by
  intro l
  induction l with
  | nil => rfl
  | cons x xs ih =>
    have h1 : ((fun j => g ((x :: xs).getD j d)) ∘ Nat.succ) =
        (fun j => g (xs.getD j d)) := funext fun j => by
      simp [List.getD_cons_succ]
    simp only [List.length_cons, List.range_succ_eq_map, List.map_cons,
      List.map_map, List.getD_cons_zero]
    rw [h1, ih]

theorem params_fold_range (ns : List Str) (f : Nat → Option Str)
    (hnd : ns.Nodup) :
    ∀ k, k ≤ ns.length →
      (List.range k).foldl (fun m j => objInsert (ns.getD j []) (f j) m) [] =
        (List.range k).map (fun j => (ns.getD j [], f j)) := by
  intro k
  induction k with
  | zero => intro _; rfl
  | succ k ih =>
    intro hk
    rw [List.range_succ, List.foldl_append, List.foldl_cons, List.foldl_nil,
      ih (by omega)]
    have hnot : ns.getD k [] ∉
        ((List.range k).map (fun j => (ns.getD j [], f j))).map Prod.fst := by
      rw [List.map_map]
      intro hm
      obtain ⟨j, hj, hje⟩ := List.mem_map.1 hm
      simp only [Function.comp_apply] at hje
      have hjk : j < k := List.mem_range.1 hj
      have hjlen : j < ns.length := by omega
      have hklen : k < ns.length := by omega
      rw [List.getD_eq_getElem ns [] hjlen, List.getD_eq_getElem ns [] hklen] at hje
      have := (hnd.getElem_inj_iff).1 hje
      omega
    rw [objInsert_of_not_mem hnot, List.map_append]
    rfl

theorem handlerResults_single (caps : Caps) (hname : Str) (ns : List Str) :
    handlerResults caps [⟨hname, ns, false⟩] 0 =
      [⟨hname,
        (List.range ns.length).foldl
          (fun m j => objInsert (ns.getD j []) (caps.getD (0 + j) none) m) [],
        !ns.isEmpty, []⟩] := rfl

/-- The params mapping `findHandler` builds for the single handler of the
round-trip table. -/
theorem params_of_caps {vals : Str → Str} (ns : List Str) (hnd : ns.Nodup) :
    (List.range ns.length).foldl
      (fun m j =>
        objInsert (ns.getD j [])
          (((ns.map (fun n => some (vals n)) ++ [none]).getD (0 + j) none)) m) [] =
      ns.map (fun n => (n, some (vals n))) := by
  have hstep : ∀ j < ns.length,
      ((ns.map (fun n => some (vals n)) ++ [none]).getD (0 + j) none) =
        some (vals (ns.getD j [])) := by
    intro j hj
    have hjm : j < (ns.map (fun n => some (vals n))).length := by
      rw [List.length_map]; exact hj
    rw [Nat.zero_add, List.getD_append _ _ _ _ hjm,
      List.getD_eq_getElem _ _ hjm, List.getElem_map, List.getD_eq_getElem ns [] hj]
  have hfold := params_fold_range ns
    (fun j => ((ns.map (fun n => some (vals n)) ++ [none]).getD (0 + j) none))
    hnd ns.length (le_refl _)
  rw [hfold]
  have hcongr : (List.range ns.length).map
      (fun j => (ns.getD j [],
        ((ns.map (fun n => some (vals n)) ++ [none]).getD (0 + j) none))) =
      (List.range ns.length).map
        (fun j => (ns.getD j [], some (vals (ns.getD j [])))) := by
    refine List.map_congr_left ?_
    intro j hj
    rw [hstep j (List.mem_range.1 hj)]
  rw [hcongr]
  exact range_map_getD (fun n => (n, some (vals n))) [] ns

theorem splitChar_cons_self (c : Char) (x : Str) :
    splitChar c (c :: x) = [] :: splitChar c x := by
  rw [splitChar, if_pos rfl]

theorem sortSolutions_single (x : State) : sortSolutions [x] = [x] := rfl

theorem recognize_single {vals : Str → Str} {toks : List Tok} {hname rname : Str}
    (hh : hname ≠ []) (hne : toks ≠ [])
    (hok : ∀ tk ∈ toks, tokOk vals tk = true)
    (hnd : (dynNames toks).Nodup) :
    recognize (tblOf toks hname rname) (genPath vals toks) =
      some [⟨hname, (dynNames toks).map (fun n => (n, some (vals n))),
            !(dynNames toks).isEmpty, []⟩] := by
  obtain ⟨kl, hwalk⟩ := walk_chain hname toks .kEmpty
    (addTerminal [⟨templatePath toks, hname⟩]) hne hok
  have hsplit : (splitChar '/' (genPath vals toks)).drop 1 =
      toks.map (tokVal vals) := by
    rw [genPath, splitChar_cons_self, splitChar_joinSep (by simpa using hne)
      (fun p hp => by
        obtain ⟨tk, htk, hrfl⟩ := List.mem_map.1 hp
        rw [← hrfl]
        exact tokVal_no_slash (hok tk htk))]
    rfl
  have hsol : recognizeSolutions (tblOf toks hname rname) (genPath vals toks) =
      [State.node kl [] (some (addTerminal [⟨templatePath toks, hname⟩]))] := by
    show (walkStates [(tblOf toks hname rname).rootState]
        ((splitChar '/' (normalizePath (genPath vals toks))).drop 1)).filter
        (fun st => st.terminal.isSome) = _
    rw [normalizePath_genPath hne hok, hsplit,
      tblOf_rootState hne hok hname rname, hwalk]
    rfl
  have hchosen : recognizeChosen (tblOf toks hname rname) (genPath vals toks) =
      some (State.node kl [] (some (addTerminal [⟨templatePath toks, hname⟩]))) := by
    show (sortSolutions (recognizeSolutions (tblOf toks hname rname)
      (genPath vals toks))).head? = _
    rw [hsol, sortSolutions_single]
    rfl
  have hfind : findHandler (addTerminal [⟨templatePath toks, hname⟩])
      (genPath vals toks) =
      some [⟨hname, (dynNames toks).map (fun n => (n, some (vals n))),
            !(dynNames toks).isEmpty, []⟩] := by
    rw [findHandler]
    have hfr : (addTerminal [⟨templatePath toks, hname⟩]).frags =
        (segsQOf toks hname).map fragOf := tblOf_frags hne hok hname
    have hha : (addTerminal [⟨templatePath toks, hname⟩]).handlers =
        [⟨hname, dynNames toks, false⟩] := addHandlers_single hne hok hname
    rw [hfr, hha, genPath_eq_piecesPath hne, matchFrags_chain hh toks hne hok]
    show some (handlerResults (capsOf vals toks) [⟨hname, dynNames toks, false⟩] 0) = _
    rw [handlerResults_single, capsOf_eq vals toks hne,
      params_of_caps (dynNames toks) hnd]
  show (match recognizeChosen (tblOf toks hname rname) (genPath vals toks) with
    | some st =>
      match st.terminal with
      | some t => findHandler t (normalizePath (genPath vals toks))
      | none => none
    | none => none) = _
  rw [hchosen]
  show findHandler (addTerminal [⟨templatePath toks, hname⟩])
    (normalizePath (genPath vals toks)) = _
  rw [normalizePath_genPath hne hok]
  exact hfind

/-- **C1** (amended): for a route registered alone as one (non-nested)
level with at least one segment and no star segments — handler and
route names nonempty, static segment text free of `^` and `$` (the
escape list omits those, so in the program they act as regex anchors and
break literal matching) — and parameter values that are nonempty strings
containing neither `/` nor `;`, with pairwise-distinct dynamic parameter
names, recognizing the path produced by `generate(R, P, {})` succeeds
and yields a one-entry handler chain whose extracted params equal `P`
(each name bound to its value).  (As universally stated the claim fails:
see the counterexample with a `/`-containing value; static text with
`$`, e.g. the route `/$`, fails the same way — `generate` renders `/$`
while the key `^$(?:;([^/]*))?$` cannot match the segment `$` — and
nested registrations additionally break it through the `hasQuery`
capture misalignment of C2.) -/
theorem single_level_roundtrip (toks : List Tok) (vals : Str → Str)
    (hname rname : Str) (hh : hname ≠ []) (hne : toks ≠ [])
    (hok : ∀ tk ∈ toks, tokOk vals tk = true)
    (hnd : (dynNames toks).Nodup) :
    generate (tblOf toks hname rname) rname (paramsOf vals toks) [] =
      .ok (genPath vals toks) ∧
    recognize (tblOf toks hname rname) (genPath vals toks) =
      some [⟨hname, (dynNames toks).map (fun n => (n, some (vals n))),
            !(dynNames toks).isEmpty, []⟩] :=
  ⟨generate_single hne hok hname rname, recognize_single hh hne hok hnd⟩

/-- Witness for the amended C1 theorem: the table `/posts/:id` with
`P = {id: "5"}` — `generate` yields `"/posts/5"` and recognizing it
returns the chain `[{handler:"post", params:{id:"5"}}]`. -/
theorem single_level_roundtrip_witness :
    (∀ tk ∈ [Tok.stat "posts".toList, Tok.dyn "id".toList],
        tokOk (fun _ => "5".toList) tk = true) ∧
    generate
        (tblOf [Tok.stat "posts".toList, Tok.dyn "id".toList]
          "post".toList "post".toList)
        "post".toList
        (paramsOf (fun _ => "5".toList)
          [Tok.stat "posts".toList, Tok.dyn "id".toList]) [] =
      .ok (genPath (fun _ => "5".toList)
        [Tok.stat "posts".toList, Tok.dyn "id".toList]) ∧
    recognize
        (tblOf [Tok.stat "posts".toList, Tok.dyn "id".toList]
          "post".toList "post".toList)
        (genPath (fun _ => "5".toList)
          [Tok.stat "posts".toList, Tok.dyn "id".toList]) =
      some [⟨"post".toList,
        (dynNames [Tok.stat "posts".toList, Tok.dyn "id".toList]).map
          (fun n => (n, some ((fun _ => "5".toList) n))),
        !(dynNames [Tok.stat "posts".toList, Tok.dyn "id".toList]).isEmpty,
        []⟩] :=
  ⟨by decide,
   (single_level_roundtrip [Tok.stat "posts".toList, Tok.dyn "id".toList]
      (fun _ => "5".toList) "post".toList "post".toList
      (by decide) (List.cons_ne_nil _ _) (by decide) (by decide)).1,
   (single_level_roundtrip [Tok.stat "posts".toList, Tok.dyn "id".toList]
      (fun _ => "5".toList) "post".toList "post".toList
      (by decide) (List.cons_ne_nil _ _) (by decide) (by decide)).2⟩

end RouteRec
